import Mathlib

/-!
Verification development for the AQL query-optimizer rules of this repository
(`arangod/Aql/OptimizerRules.cpp`, given as `src/unnamed/part_000`) and the
HTTP cursor actions (`src/js/actions/api-cursor.js`).

The execution-plan data model and the optimizer rules are embedded shallowly:
execution nodes are a tagged variant, a plan is the list of nodes it owns plus
its id counter, and each rule is a pure function from plans to plans.  The
plan-graph primitives (`getVarSetBy`, `registerNode`, `replaceNode`,
`unlinkNode`, `clone`, `findNodesOfType`) are declared in `ExecutionPlan.h/cpp`,
which is not part of the provided sources; those definitions are modelled from
the specification's contracts (spec section 4.1) and carry a
`Modelled from the spec:` doc comment.  Everything inside `OptimizerRules.cpp`
is translated directly from the source.
-/

namespace ArangoAql

/-- A query variable: unique id plus name (`Aql/Variable.h`). -/
structure Variable where
  id : Nat
  name : String
deriving DecidableEq, Repr

/-- A constant AQL value as far as the optimizer rules inspect one:
null, boolean or integer (the claims only exercise these). -/
inductive AqlValue
  | nullV
  | boolV (b : Bool)
  | intV (i : Int)
deriving DecidableEq, Repr

/-- The expression AST node kinds that `buildRangeInfo` and
`removeUnnecessaryFiltersRule` inspect: references to variables, attribute
accesses, constant values, the binary comparisons and conjunction. -/
inductive AstNode
  | reference (v : Variable)
  | attributeAccess (name : String) (base : AstNode)
  | valueNode (v : AqlValue)
  | binEq (lhs rhs : AstNode)
  | binLt (lhs rhs : AstNode)
  | binGt (lhs rhs : AstNode)
  | binLe (lhs rhs : AstNode)
  | binGe (lhs rhs : AstNode)
  | binAnd (lhs rhs : AstNode)
deriving DecidableEq, Repr

/-- Tester for `NODE_TYPE_ATTRIBUTE_ACCESS`. -/
def AstNode.isAttrAccess : AstNode → Bool
  | .attributeAccess _ _ => true
  | _ => false

/-- Tester for `NODE_TYPE_VALUE`. -/
def AstNode.isValueNode : AstNode → Bool
  | .valueNode _ => true
  | _ => false

/-- Modelled from the spec: the external `Expression`/`AstNode` contract
exposes `isConstant()`; a literal value node is constant (`Aql/AstNode.cpp`
is not among the provided sources). -/
def AstNode.isConstant : AstNode → Bool
  | .valueNode _ => true
  | _ => false

/-- Truthiness of a constant AQL value. -/
def AqlValue.toBool : AqlValue → Bool
  | .nullV => false
  | .boolV b => b
  | .intV i => decide (i ≠ 0)

/-- Modelled from the spec: `toBoolean()` of the external Expression contract,
valid on constant nodes. -/
def AstNode.toBoolean : AstNode → Bool
  | .valueNode v => v.toBool
  | _ => false

/-- Variables referenced inside an expression tree (used by
`getVariablesUsedHere` of a Calculation node). -/
def AstNode.referencedVariables : AstNode → List Variable
  | .reference v => [v]
  | .attributeAccess _ base => base.referencedVariables
  | .valueNode _ => []
  | .binEq l r => l.referencedVariables ++ r.referencedVariables
  | .binLt l r => l.referencedVariables ++ r.referencedVariables
  | .binGt l r => l.referencedVariables ++ r.referencedVariables
  | .binLe l r => l.referencedVariables ++ r.referencedVariables
  | .binGe l r => l.referencedVariables ++ r.referencedVariables
  | .binAnd l r => l.referencedVariables ++ r.referencedVariables

/-- An `Expression` owns an AST and answers `canThrow()`; throw-safety is an
externally supplied property of the underlying expression, kept as a field. -/
structure Expression where
  node : AstNode
  canThrow : Bool
deriving DecidableEq, Repr

/-- One side of an interval constraint: the constant operand (kept as the AST
value node, like the C++ `RangeInfoBound(AstNode const*, bool)`) plus the
inclusive flag. -/
structure RangeInfoBound where
  value : AstNode
  inclusive : Bool
deriving DecidableEq, Repr

/-- A (low, high) pair of optional bounds on one attribute. -/
structure RangeInfo where
  low : Option RangeInfoBound
  high : Option RangeInfoBound
deriving DecidableEq, Repr

/-- The `RangesInfo` accumulator: entries (variable name, attribute path,
range).  The C++ type lives in `Aql/Indexes.h`, not among the provided
sources; an association list models its nested maps. -/
def RangesInfo : Type := List (String × String × RangeInfo)

instance : DecidableEq RangesInfo := by
  unfold RangesInfo
  infer_instance

/-- Modelled from the spec: `RangesInfo::insert(var, attr, low, high)` maps
(bound variable name, attribute path) to a (low, high) pair; a later
contribution on the same attribute overwrites the earlier one on each side it
supplies rather than intersecting (spec sections 3, 4.5 and 9), so a side that
is not supplied keeps its previous bound — the spec's worked example
`a > 1 AND a < 10` accumulates low = 1 exclusive and high = 10 exclusive. -/
def RangesInfo.insert : RangesInfo → String → String → Option RangeInfoBound →
    Option RangeInfoBound → RangesInfo
  | [], v, a, lo, hi => [(v, a, ⟨lo, hi⟩)]
  | (v', a', ri) :: rest, v, a, lo, hi =>
    if v' = v ∧ a' = a then
      (v', a',
        ⟨match lo with | some b => some b | none => ri.low,
         match hi with | some b => some b | none => ri.high⟩) :: rest
    else
      (v', a', ri) :: RangesInfo.insert rest v a lo hi

/-- Modelled from the spec: `RangesInfo::find(name)` returns the attribute
map for one variable, or null when no attribute of that variable has bounds;
here the (attribute, range) pairs recorded under the name. -/
def RangesInfo.findVar (r : RangesInfo) (name : String) : List (String × RangeInfo) :=
  r.filterMap (fun e => if e.1 = name then some (e.2.1, e.2.2) else none)

/-- An index handle from the catalog: its name and the attribute fields it
covers (`TRI_index_t` is external). -/
structure Index where
  name : String
  fields : List String
deriving DecidableEq, Repr

/-- The execution-node kinds this file needs (`ExecutionNode::NodeType`). -/
inductive NodeType
  | SINGLETON
  | ENUMERATE_COLLECTION
  | CALCULATION
  | FILTER
  | RETURN
  | INDEX_RANGE
  | NO_RESULTS
deriving DecidableEq, Repr

/-- Payload of an execution node, a tagged variant over the node kinds.
`enumerateCollection` carries the vocbase and collection names, its
out-variable and the indexes the catalog knows for the collection;
`indexRange` carries what the `IndexRangeNode` constructor receives. -/
inductive NodeData
  | singleton
  | enumerateCollection (vocbase collection : String) (outVariable : Variable)
      (indexes : List Index)
  | calculation (expr : Expression) (outVariable : Variable)
  | filter (inVariable : Variable)
  | ret (inVariable : Variable)
  | indexRange (vocbase collection : String) (outVariable : Variable)
      (index : Index) (ranges : List RangeInfo)
  | noResults
deriving DecidableEq, Repr

/-- The type tag of a node (`ExecutionNode::getType`). -/
def NodeData.getType : NodeData → NodeType
  | .singleton => .SINGLETON
  | .enumerateCollection _ _ _ _ => .ENUMERATE_COLLECTION
  | .calculation _ _ => .CALCULATION
  | .filter _ => .FILTER
  | .ret _ => .RETURN
  | .indexRange _ _ _ _ _ => .INDEX_RANGE
  | .noResults => .NO_RESULTS

/-- `getVariablesSetHere`: Calculation, EnumerateCollection and IndexRange
introduce exactly their out-variable. -/
def NodeData.variablesSetHere : NodeData → List Variable
  | .calculation _ v => [v]
  | .enumerateCollection _ _ v _ => [v]
  | .indexRange _ _ v _ _ => [v]
  | _ => []

/-- `getVariablesUsedHere`: Filter and Return read their input variable, a
Calculation reads the variables of its expression. -/
def NodeData.variablesUsedHere : NodeData → List Variable
  | .calculation e _ => e.node.referencedVariables
  | .filter v => [v]
  | .ret v => [v]
  | _ => []

/-- A plan vertex: plan-unique id, payload, and the ids of its dependencies
(producers).  Parents (consumers) are derived as the inverse relation. -/
structure ExecutionNode where
  id : Nat
  data : NodeData
  deps : List Nat
deriving DecidableEq, Repr

/-- An execution plan: the nodes it owns and the id counter backing
`nextId()`. -/
structure ExecutionPlan where
  nodes : List ExecutionNode
  nextIdCounter : Nat
deriving DecidableEq, Repr

/-- The ids of all nodes of a plan. -/
def idsOf (p : ExecutionPlan) : List Nat := p.nodes.map (·.id)

/-- A node with the given id is present in the plan. -/
def containsIdP (p : ExecutionPlan) (i : Nat) : Prop := ∃ x ∈ p.nodes, x.id = i

instance (p : ExecutionPlan) (i : Nat) : Decidable (containsIdP p i) := by
  unfold containsIdP
  infer_instance

/-- Modelled from the spec: `getNodeById(id)` (spec section 4.1). -/
def ExecutionPlan.getNodeById (p : ExecutionPlan) (i : Nat) : Option ExecutionNode :=
  p.nodes.find? (fun n => n.id = i)

/-- Modelled from the spec: `findNodesOfType(kind, recursive)` returns the
nodes of one kind in a deterministic traversal order; here the order in which
the plan lists its nodes. -/
def ExecutionPlan.findNodesOfType (p : ExecutionPlan) (t : NodeType) : List ExecutionNode :=
  p.nodes.filter (fun n => n.data.getType = t)

/-- Whether a node introduces the variable with the given id. -/
def settingPred (vid : Nat) (n : ExecutionNode) : Bool :=
  n.data.variablesSetHere.any (fun w => w.id = vid)

/-- Modelled from the spec: `getVarSetBy(variableId)` resolves the unique
setter node of a variable, or none (spec sections 3 and 4.1). -/
def ExecutionPlan.getVarSetBy (p : ExecutionPlan) (vid : Nat) : Option ExecutionNode :=
  p.nodes.find? (settingPred vid)

/-- Modelled from the spec: `getParents()` of a node — the consumers, i.e.
the nodes that list it as a dependency. -/
def ExecutionPlan.parentsOf (p : ExecutionPlan) (nid : Nat) : List ExecutionNode :=
  p.nodes.filter (fun m => m.deps.contains nid)

/-- Modelled from the spec: `registerNode(node)` — the plan takes ownership
of the node (spec section 4.1). -/
def ExecutionPlan.registerNode (p : ExecutionPlan) (n : ExecutionNode) : ExecutionPlan :=
  { p with nodes := p.nodes ++ [n] }

/-- Modelled from the spec: `replaceNode(old, new, parent)` splices the
already-registered node `newId` in place of `oldId` under the given parent:
the new node takes over the old node's dependencies, the parent's dependency
on the old node is redirected to the new node, and the old node leaves the
graph (spec section 4.1). -/
def ExecutionPlan.replaceNode (p : ExecutionPlan) (oldId newId parentId : Nat) :
    ExecutionPlan :=
  match p.getNodeById oldId with
  | none => p
  | some old =>
    { p with nodes :=
        (p.nodes.filter (fun m => m.id ≠ oldId)).map (fun m =>
          if m.id = newId then { m with deps := old.deps }
          else if m.id = parentId then
            { m with deps := m.deps.map (fun d => if d = oldId then newId else d) }
          else m) }

/-- Modelled from the spec: `unlinkNode` removes a node that has exactly one
dependency and rewires every parent of the removed node to depend directly on
that one dependency (spec section 4.1); a node with zero or more than one
dependency is a programming error (assertion), modelled as a no-op. -/
def ExecutionPlan.unlinkNode (p : ExecutionPlan) (nid : Nat) : ExecutionPlan :=
  match p.getNodeById nid with
  | none => p
  | some n =>
    match n.deps with
    | [d] =>
      { p with nodes :=
          (p.nodes.filter (fun m => m.id ≠ nid)).map (fun m =>
            { m with deps := m.deps.map (fun x => if x = nid then d else x) }) }
    | _ => p

/-- Modelled from the spec: `unlinkNodes(set)` applies `unlinkNode` to each
node of the batch (spec sections 4.1 and 4.3). -/
def ExecutionPlan.unlinkNodes (p : ExecutionPlan) (ids : List Nat) : ExecutionPlan :=
  ids.foldl ExecutionPlan.unlinkNode p

/-- Modelled from the spec: `clone()` yields a fully independent deep copy
with no shared mutable state (spec sections 4.1 and 5).  In this pure
embedding plan values are immutable, so the copy is the value itself; the
clone's fresh allocations are the ids drawn from `nextId` afterwards. -/
def ExecutionPlan.clone (p : ExecutionPlan) : ExecutionPlan := p

/-- Plan well-formedness used by the graph lemmas: node ids are distinct and
below the id counter. -/
def wfPlan (p : ExecutionPlan) : Prop :=
  (idsOf p).Nodup ∧ ∀ x ∈ p.nodes, x.id < p.nextIdCounter

instance (p : ExecutionPlan) : Decidable (wfPlan p) := by
  unfold wfPlan
  infer_instance

/-!  `removeUnnecessaryFiltersRule` (`OptimizerRules.cpp` lines 47-106). -/

/-- The decision the rule takes for one scanned node: `some b` when the node
is a Filter whose single input variable was set by a Calculation with a
constant expression of truth value `b`; `none` when the rule skips the node
(no setter, setter not a Calculation, or non-constant expression). -/
def filterVerdict (p : ExecutionPlan) (n : ExecutionNode) : Option Bool :=
  match n.data with
  | .filter v =>
    match p.getVarSetBy v.id with
    | some s =>
      match s.data with
      | .calculation e _ => if e.node.isConstant then some e.node.toBoolean else none
      | _ => none
    | none => none
  | _ => none

/-- One iteration of the scan loop of `removeUnnecessaryFiltersRule`
(lines 56-99): a constant-true filter is recorded for batched unlinking; a
constant-false filter is replaced in place by a freshly registered NoResults
node under its single parent (`TRI_ASSERT(parents.size() == 1)`, modelled by
the singleton match); any other node is skipped. -/
def rufStep (acc : ExecutionPlan × List Nat) (n : ExecutionNode) :
    ExecutionPlan × List Nat :=
  match filterVerdict acc.1 n with
  | some true => (acc.1, acc.2 ++ [n.id])
  | some false =>
    match acc.1.parentsOf n.id with
    | [parent] =>
      let nr : ExecutionNode := ⟨acc.1.nextIdCounter, .noResults, []⟩
      let p2 := { acc.1 with nextIdCounter := acc.1.nextIdCounter + 1 }
      let p3 := p2.registerNode nr
      (p3.replaceNode n.id nr.id parent.id, acc.2)
    | _ => acc
  | none => acc

/-- The full scan of `removeUnnecessaryFiltersRule` over the snapshot of
Filter nodes, yielding the mutated plan and the batch of nodes to unlink. -/
def ruf_scan (plan : ExecutionPlan) : ExecutionPlan × List Nat :=
  (plan.findNodesOfType .FILTER).foldl rufStep (plan, [])

/-- `removeUnnecessaryFiltersRule` (lines 47-106): scan all Filter nodes,
then apply the collected unlinks in one batch; the plan is always kept
(`keep = true`). -/
def removeUnnecessaryFiltersRule (plan : ExecutionPlan) : ExecutionPlan × Bool :=
  let r := ruf_scan plan
  (if r.2.isEmpty then r.1 else r.1.unlinkNodes r.2, true)

/-!  `removeUnnecessaryCalculationsRule` (`OptimizerRules.cpp` lines 205-240). -/

/-- Ids of the transitive consumers of a node: every node from which a chain
of dependency edges leads back to it, collected with enough fuel to exhaust
the acyclic graph. -/
def consumerIds (p : ExecutionPlan) : Nat → Nat → List Nat
  | 0, _ => []
  | fuel + 1, nid =>
    let direct := (p.parentsOf nid).map (·.id)
    direct ++ direct.flatMap (consumerIds p fuel)

/-- Modelled from the spec: `getVarsUsedLater()` — the set of variables used
by any node that is a transitive consumer of the given node, computed from
the plan (spec section 4.3; `ExecutionNode::getVarsUsedLater` is not among
the provided sources). -/
def varIdsUsedLater (p : ExecutionPlan) (nid : Nat) : List Nat :=
  (consumerIds p p.nodes.length nid).flatMap (fun cid =>
    match p.getNodeById cid with
    | some m => m.data.variablesUsedHere.map (·.id)
    | none => [])

/-- The test of the scan loop of `removeUnnecessaryCalculationsRule`
(lines 213-231): a Calculation node whose expression cannot throw and whose
output variable is not used later in the plan. -/
def deadCalc (plan : ExecutionPlan) (n : ExecutionNode) : Bool :=
  match n.data with
  | .calculation e v => !e.canThrow && !(varIdsUsedLater plan n.id).contains v.id
  | _ => false

/-- The batch of Calculation nodes `removeUnnecessaryCalculationsRule`
collects for unlinking. -/
def ruc_toUnlink (plan : ExecutionPlan) : List Nat :=
  ((plan.findNodesOfType .CALCULATION).filter (deadCalc plan)).map (·.id)

/-- `removeUnnecessaryCalculationsRule` (lines 205-240): collect every
throw-free Calculation whose output variable has no later use, then unlink
the batch; the plan is always kept. -/
def removeUnnecessaryCalculationsRule (plan : ExecutionPlan) : ExecutionPlan × Bool :=
  let toUnlink := ruc_toUnlink plan
  (if toUnlink.isEmpty then plan else plan.unlinkNodes toUnlink, true)

/-- The setter's payload for a variable id — the only part of the
`getVarSetBy` answer the filter rule inspects. -/
def setterData (p : ExecutionPlan) (vid : Nat) : Option NodeData :=
  (p.getVarSetBy vid).map (fun s => s.data)

/-- Invariant of the scan of `removeUnnecessaryFiltersRule` relating an
intermediate plan to the original: node ids stay distinct and below the
counter, the counter never decreases, nodes with pre-existing ids keep their
original payload, freshly registered nodes are NoResults, and every
variable's setter payload is unchanged (the scan only removes filters, which
set no variable, and adds NoResults nodes). -/
structure ScanInv (plan p : ExecutionPlan) : Prop where
  nodup : (idsOf p).Nodup
  bound : ∀ x ∈ p.nodes, x.id < p.nextIdCounter
  mono : plan.nextIdCounter ≤ p.nextIdCounter
  origData : ∀ x ∈ p.nodes, x.id < plan.nextIdCounter →
    ∃ x0 ∈ plan.nodes, x0.id = x.id ∧ x0.data = x.data
  freshData : ∀ x ∈ p.nodes, plan.nextIdCounter ≤ x.id → x.data = .noResults
  setters : ∀ vid, setterData p vid = setterData plan vid

/-- Tracking of one constant-true filter `F`, its single dependency `d` and
one parent id through the scan: the filter survives untouched and the parent
still lists it. -/
structure TrackInv (p : ExecutionPlan) (F : ExecutionNode) (d pfId : Nat) : Prop where
  fmem : ∃ x ∈ p.nodes, x.id = F.id ∧ x.data = F.data ∧ x.deps = [d]
  pfmem : ∃ x ∈ p.nodes, x.id = pfId ∧ F.id ∈ x.deps

/-- State during the unlink batch before the filter was unlinked: the filter
node is still present with its single dependency and the parent still lists
the filter. -/
def ruf_stateA (p : ExecutionPlan) (fid d pfId : Nat) : Prop :=
  (∃ xF ∈ p.nodes, xF.id = fid ∧ xF.deps = [d])
    ∧ (∃ xpf ∈ p.nodes, xpf.id = pfId ∧ fid ∈ xpf.deps)

/-- State during the unlink batch after the filter was unlinked: the parent
depends directly on the filter's former single dependency. -/
def ruf_stateB (p : ExecutionPlan) (d pfId : Nat) : Prop :=
  ∃ xpf ∈ p.nodes, xpf.id = pfId ∧ d ∈ xpf.deps

/-!  `CalculationNodeFinder` and `useIndexRange`
(`OptimizerRules.cpp` lines 246-445). -/

/-- The test of `buildRangeInfo`'s reference case (lines 318-326): the
variable's setter exists and is an EnumerateCollection node. -/
def varResolvesToEnumColl (plan : ExecutionPlan) (x : Variable) : Bool :=
  match plan.getVarSetBy x.id with
  | some s => decide (s.data.getType = NodeType.ENUMERATE_COLLECTION)
  | none => false

/-- `CalculationNodeFinder::buildRangeInfo` (lines 317-421), with the two
reference out-parameters `enumCollVar` and `attr` threaded explicitly and the
updated triple (enumCollVar, attr, ranges) returned:

* a reference whose setter is an EnumerateCollection records the variable
  name (lines 318-326);
* an attribute access recurses into its base and, when the base resolved,
  appends the attribute name and a dot to the path (lines 328-335);
* `==` with a value on one side and an attribute access on the other inserts
  an inclusive low and high bound equal to the value (lines 337-362);
* `<`, `>`, `<=`, `>=` with a value on one side insert one single-sided
  bound whose direction normalizes which operand is the attribute and whose
  inclusive flag holds exactly for `<=` and `>=` (lines 364-412);
* a conjunction resets the path and recurses into both operands
  (lines 414-420). -/
def buildRangeInfo (plan : ExecutionPlan) :
    AstNode → String → String → RangesInfo → String × String × RangesInfo
  | .reference x, e, attr, ranges =>
    if varResolvesToEnumColl plan x then (x.name, attr, ranges) else (e, attr, ranges)
  | .attributeAccess nm base, e, attr, ranges =>
    match buildRangeInfo plan base e attr ranges with
    | (e', attr', ranges') =>
      if e' ≠ "" then (e', attr' ++ nm ++ ".", ranges') else (e', attr', ranges')
  | .valueNode _, e, attr, ranges => (e, attr, ranges)
  | .binEq lhs rhs, e, attr, ranges =>
    if rhs.isAttrAccess && lhs.isValueNode then
      match buildRangeInfo plan rhs e attr ranges with
      | (e', attr', ranges') =>
        if e' ≠ "" then
          (e', attr', ranges'.insert e' (attr'.dropRight 1)
            (some ⟨lhs, true⟩) (some ⟨lhs, true⟩))
        else (e', attr', ranges')
    else if lhs.isAttrAccess && rhs.isValueNode then
      match buildRangeInfo plan lhs e attr ranges with
      | (e', attr', ranges') =>
        if e' ≠ "" then
          (e', attr', ranges'.insert e' (attr'.dropRight 1)
            (some ⟨rhs, true⟩) (some ⟨rhs, true⟩))
        else (e', attr', ranges')
    else (e, attr, ranges)
  | .binLt lhs rhs, e, attr, ranges =>
    if rhs.isAttrAccess && lhs.isValueNode then
      match buildRangeInfo plan rhs e attr ranges with
      | (e', attr', ranges') =>
        if e' ≠ "" then
          (e', attr', ranges'.insert e' (attr'.dropRight 1) (some ⟨lhs, false⟩) none)
        else (e', attr', ranges')
    else if lhs.isAttrAccess && rhs.isValueNode then
      match buildRangeInfo plan lhs e attr ranges with
      | (e', attr', ranges') =>
        if e' ≠ "" then
          (e', attr', ranges'.insert e' (attr'.dropRight 1) none (some ⟨rhs, false⟩))
        else (e', attr', ranges')
    else (e, attr, ranges)
  | .binGt lhs rhs, e, attr, ranges =>
    if rhs.isAttrAccess && lhs.isValueNode then
      match buildRangeInfo plan rhs e attr ranges with
      | (e', attr', ranges') =>
        if e' ≠ "" then
          (e', attr', ranges'.insert e' (attr'.dropRight 1) none (some ⟨lhs, false⟩))
        else (e', attr', ranges')
    else if lhs.isAttrAccess && rhs.isValueNode then
      match buildRangeInfo plan lhs e attr ranges with
      | (e', attr', ranges') =>
        if e' ≠ "" then
          (e', attr', ranges'.insert e' (attr'.dropRight 1) (some ⟨rhs, false⟩) none)
        else (e', attr', ranges')
    else (e, attr, ranges)
  | .binLe lhs rhs, e, attr, ranges =>
    if rhs.isAttrAccess && lhs.isValueNode then
      match buildRangeInfo plan rhs e attr ranges with
      | (e', attr', ranges') =>
        if e' ≠ "" then
          (e', attr', ranges'.insert e' (attr'.dropRight 1) (some ⟨lhs, true⟩) none)
        else (e', attr', ranges')
    else if lhs.isAttrAccess && rhs.isValueNode then
      match buildRangeInfo plan lhs e attr ranges with
      | (e', attr', ranges') =>
        if e' ≠ "" then
          (e', attr', ranges'.insert e' (attr'.dropRight 1) none (some ⟨rhs, true⟩))
        else (e', attr', ranges')
    else (e, attr, ranges)
  | .binGe lhs rhs, e, attr, ranges =>
    if rhs.isAttrAccess && lhs.isValueNode then
      match buildRangeInfo plan rhs e attr ranges with
      | (e', attr', ranges') =>
        if e' ≠ "" then
          (e', attr', ranges'.insert e' (attr'.dropRight 1) none (some ⟨lhs, true⟩))
        else (e', attr', ranges')
    else if lhs.isAttrAccess && rhs.isValueNode then
      match buildRangeInfo plan lhs e attr ranges with
      | (e', attr', ranges') =>
        if e' ≠ "" then
          (e', attr', ranges'.insert e' (attr'.dropRight 1) (some ⟨rhs, true⟩) none)
        else (e', attr', ranges')
    else (e, attr, ranges)
  | .binAnd lhs rhs, e, _, ranges =>
    match buildRangeInfo plan lhs e "" ranges with
    | (e', _, ranges') => buildRangeInfo plan rhs e' "" ranges'

/-- Modelled from the spec: `EnumerateCollectionNode::getIndexes(attrs)` —
the index-catalog query `candidates(collection, attribute-set)` returning the
candidate indexes for the accumulated attribute set (spec section 6). -/
def getIndexes (indexes : List Index) (attrs : List String) : List Index :=
  indexes.filter (fun i => decide (i.fields = attrs))

/-- The walker state of `CalculationNodeFinder`: the `RangesInfo` accumulator,
the previously visited node (`_prev`), and the plan list the finder pushes
clones onto (its `_out` field — note the C++ declares this field by value,
`Optimizer::PlanList _out`, so it is a copy of the caller's list). -/
structure FinderState where
  ranges : RangesInfo
  prev : Option Nat
  out : List ExecutionPlan
deriving DecidableEq

/-- The body of the per-index loop (lines 291-311) for one candidate index:
clone the plan, create an `IndexRangeNode` with a fresh id carrying the
vocbase, collection, out-variable, index and accumulated range list, register
it, and splice it in place of the EnumerateCollection node under the
previously visited node. -/
def spliceIndexNode (plan : ExecutionPlan) (enumId prevId : Nat)
    (vocbase collection : String) (outVar : Variable) (ri : List RangeInfo)
    (idx : Index) : ExecutionPlan :=
  let newPlan := plan.clone
  let nid := newPlan.nextIdCounter
  let newPlan := { newPlan with nextIdCounter := nid + 1 }
  let newNode : ExecutionNode := ⟨nid, .indexRange vocbase collection outVar idx ri, []⟩
  let newPlan := newPlan.registerNode newNode
  newPlan.replaceNode enumId nid prevId

/-- The per-index loop (lines 291-311) with the possibility that constructing
or registering the `IndexRangeNode` raises, mirroring the
`try/catch (...) { delete newNode; delete newPlan; throw; }` block
(lines 295-306): when `failsOn idx` holds the partially built node and the
clone are discarded and the exception propagates as `Except.error`, so no
clone for that index (or any later one) is appended; otherwise the spliced
clone is appended to the finder's list and the loop continues. -/
def processIndexes (failsOn : Index → Bool) (plan : ExecutionPlan)
    (enumId prevId : Nat) (vocbase collection : String) (outVar : Variable)
    (ri : List RangeInfo) (st : FinderState) :
    List Index → Except Unit FinderState
  | [] => .ok st
  | idx :: rest =>
    if failsOn idx then .error ()
    else
      processIndexes failsOn plan enumId prevId vocbase collection outVar ri
        { st with out :=
            st.out ++ [spliceIndexNode plan enumId prevId vocbase collection outVar ri idx] }
        rest

/-- `CalculationNodeFinder::before` (lines 261-315): on a Calculation node
setting the tracked variable, interpret its expression with `buildRangeInfo`;
on an EnumerateCollection node whose out-variable has accumulated ranges,
query the catalog and splice one `IndexRangeNode` clone per candidate index;
always record the node as the new `_prev`. -/
def finderBefore (plan : ExecutionPlan) (tracked : Variable) (st : FinderState)
    (en : ExecutionNode) : FinderState :=
  let st' :=
    match en.data with
    | .calculation e _ =>
      match en.data.variablesSetHere with
      | [outvar] =>
        if outvar.id = tracked.id then
          match buildRangeInfo plan e.node "" "" st.ranges with
          | (_, _, r) => { st with ranges := r }
        else st
      | _ => st
    | .enumerateCollection vocbase collection outVar idxs =>
      let m : List (String × RangeInfo) := st.ranges.findVar outVar.name
      if m.isEmpty then st
      else
        let attrs := m.map Prod.fst
        let ri := m.map Prod.snd
        match st.prev with
        | none => st
        | some prevId =>
          match processIndexes (fun _ => false) plan en.id prevId vocbase collection
              outVar ri st (getIndexes idxs attrs) with
          | .ok st2 => st2
          | .error _ => st
    | _ => st
  { st' with prev := some en.id }

/-- The dependency walk `nn->walk(&finder)`: visit a node (calling `before`),
then walk each dependency, threading the finder state; fuelled by the node
count of the acyclic plan. -/
def walkFrom (plan : ExecutionPlan) (tracked : Variable) :
    Nat → FinderState → Nat → FinderState
  | 0, st, _ => st
  | fuel + 1, st, nid =>
    match plan.getNodeById nid with
    | none => st
    | some en =>
      let st1 := finderBefore plan tracked st en
      en.deps.foldl (walkFrom plan tracked fuel) st1

/-- One finder run for one Filter node: a fresh `RangesInfo`, no previous
node, and — because `CalculationNodeFinder::_out` is declared by value — a
copy of the caller's plan list as the initial `out`. -/
def finderRun (plan : ExecutionPlan) (tracked : Variable)
    (out0 : List ExecutionPlan) (startId : Nat) : FinderState :=
  walkFrom plan tracked plan.nodes.length ⟨[], none, out0⟩ startId

/-- `useIndexRange` (lines 428-445): for every Filter node, run a
`CalculationNodeFinder` walk from it.  The finder's `_out` field is declared
by value (`Optimizer::PlanList _out`, line 250) and initialised from the
caller's list (line 257), so every clone the walk pushes lands in that copy,
which is discarded when the finder goes out of scope at the end of the loop
iteration; the caller's list is returned unchanged, and `keep = true`. -/
def useIndexRange (plan : ExecutionPlan) (out0 : List ExecutionPlan) :
    List ExecutionPlan × Bool :=
  let nodes := plan.findNodesOfType .FILTER
  let out := nodes.foldl (fun out n =>
    match n.data.variablesUsedHere with
    | [v] =>
      let _finderCopy := finderRun plan v out n.id
      out
    | _ => out) out0
  (out, true)

/-!  Helper constructions for stating the range-inference claims. -/

/-- The comparison operators `buildRangeInfo` handles in its ordering branch. -/
inductive CmpOp
  | lt
  | le
  | gt
  | ge
deriving DecidableEq, Repr

/-- Build the AST comparison node for an operator. -/
def CmpOp.toNode : CmpOp → AstNode → AstNode → AstNode
  | .lt, l, r => .binLt l r
  | .le, l, r => .binLe l r
  | .gt, l, r => .binGt l r
  | .ge, l, r => .binGe l r

/-- The operator includes equality (`<=` or `>=`). -/
def CmpOp.inclusive : CmpOp → Bool
  | .le => true
  | .ge => true
  | _ => false

/-- The operator is `>` or `>=` (the `NODE_TYPE_OPERATOR_BINARY_GE/GT` test
of lines 379-380 and 390-391). -/
def CmpOp.isGtFamily : CmpOp → Bool
  | .gt => true
  | .ge => true
  | _ => false

/-- A nested attribute access `base.aₙ.….a₁` for a chain listed
outermost-first (`["b", "a"]` with base `p` is `p.a.b`). -/
def mkAttrAccessChain : List String → AstNode → AstNode
  | [], base => base
  | a :: rest, base => .attributeAccess a (mkAttrAccessChain rest base)

/-- The dotted attribute path `buildRangeInfo` accumulates for a chain,
including the trailing dot. -/
def chainPath : List String → String
  | [] => ""
  | a :: rest => chainPath rest ++ a ++ "."

/-!  The HTTP cursor actions (`src/js/actions/api-cursor.js`). -/

/-- A JavaScript value as far as the cursor actions inspect one. -/
inductive JsValue
  | undef
  | nullV
  | boolV (b : Bool)
  | numV (n : Int)
  | strV (s : String)
deriving DecidableEq, Repr

/-- JavaScript truthiness: `undefined`, `null`, `false`, `0` and `""` are
falsy. -/
def JsValue.truthy : JsValue → Bool
  | .undef => false
  | .nullV => false
  | .boolV b => b
  | .numV n => decide (n ≠ 0)
  | .strV s => decide (s ≠ "")

/-- The JavaScript `a || b` operator on values. -/
def jsOr (a b : JsValue) : JsValue := if a.truthy then a else b

/-- The JSON body of `POST /_api/cursor` as far as the options construction
reads it; an absent attribute is `undef`.  The `options` attribute is `some`
an association list of its own enumerable properties when the body carries a
non-null object (the `json.options !== null && typeof json.options ===
'object'` test of line 353), `none` otherwise. -/
structure CursorRequestBody where
  query : JsValue
  count : JsValue
  batchSize : JsValue
  ttl : JsValue
  options : Option (List (String × JsValue))
deriving DecidableEq, Repr

/-- JavaScript property assignment `obj[k] = v` on an association-list
object: overwrite the existing key in place or append a new one. -/
def setProp : List (String × JsValue) → String → JsValue → List (String × JsValue)
  | [], k, v => [(k, v)]
  | (k', v') :: rest, k, v =>
    if k' = k then (k', v) :: rest else (k', v') :: setProp rest k v

/-- JavaScript property read `obj[k]` on an association-list object. -/
def getProp (l : List (String × JsValue)) (k : String) : Option JsValue :=
  (l.find? (fun kv => kv.1 = k)).map (fun kv => kv.2)

/-- The options object handed to `AQL_EXECUTE` by `post_api_cursor`
(`api-cursor.js` lines 347-359): first the defaults
`count: json.count || false`, `batchSize: json.batchSize || 1000`,
`ttl: json.ttl`, then the merge loop that copies every own property of
`json.options` over them. -/
def post_api_cursor_options (json : CursorRequestBody) : List (String × JsValue) :=
  let options : List (String × JsValue) :=
    [("count", jsOr json.count (.boolV false)),
     ("batchSize", jsOr json.batchSize (.numV 1000)),
     ("ttl", json.ttl)]
  match json.options with
  | some opts => opts.foldl (fun acc kv => setProp acc kv.1 kv.2) options
  | none => options

/-- A minimal HTTP response: status code and ArangoDB error number. -/
structure HttpResponse where
  status : Nat
  errorNum : Nat
deriving DecidableEq, Repr

/-- The ArangoDB error number `ERROR_HTTP_BAD_PARAMETER`. -/
def ERROR_HTTP_BAD_PARAMETER : Nat := 400

/-- The ArangoDB error number `ERROR_CURSOR_NOT_FOUND`. -/
def ERROR_CURSOR_NOT_FOUND : Nat := 1600

/-- Modelled from the spec: `actions.resultBad` answers HTTP 400 with the
given error number (spec section 7: compile/execution errors map to 400). -/
def resultBad (errorNum : Nat) : HttpResponse := ⟨400, errorNum⟩

/-- Modelled from the spec: `actions.resultNotFound` answers HTTP 404 with
the given error number (spec section 7: resource-not-found maps to 404). -/
def resultNotFound (errorNum : Nat) : HttpResponse := ⟨404, errorNum⟩

/-- Modelled from the spec: `actions.resultCursor` streams the next batch
with the given success status. -/
def resultCursor (status : Nat) : HttpResponse := ⟨status, 0⟩

/-- `put_api_cursor` (`api-cursor.js` lines 481-503) over the set of live
cursor ids: without exactly one URL suffix it answers `resultBad` with
`ERROR_HTTP_BAD_PARAMETER`; with one suffix it looks the cursor up
(`CURSOR(cursorId)`, modelled by membership in the live set) and, when the
lookup does not yield a cursor, answers `resultBad` — not `resultNotFound` —
with `ERROR_CURSOR_NOT_FOUND`; a live cursor is streamed with HTTP 200. -/
def put_api_cursor (live : List String) (suffix : List String) : HttpResponse :=
  match suffix with
  | [cursorId] =>
    if live.contains cursorId then resultCursor 200
    else resultBad ERROR_CURSOR_NOT_FOUND
  | _ => resultBad ERROR_HTTP_BAD_PARAMETER

/-!  Concrete plans used by the worked examples, witnesses and
counterexamples. -/

/-- The collection-bound variable `p` of the worked examples. -/
def pVar : Variable := ⟨0, "p"⟩

/-- The filter variable `t` of the worked examples. -/
def tVar : Variable := ⟨1, "t"⟩

/-- An index on attribute `a`. -/
def idxA : Index := ⟨"idx_a", ["a"]⟩

/-- The expression `p.a == 5`. -/
def exprPaEq5 : AstNode :=
  .binEq (.attributeAccess "a" (.reference pVar)) (.valueNode (.intV 5))

/-- The spec's worked plan
`Singleton → EnumerateCollection(coll) → Calculation(t = p.a == 5) →
Filter(t) → Return(p)`, with one index on `a`. -/
def examplePlan : ExecutionPlan :=
  { nodes :=
      [ ⟨0, .singleton, []⟩
      , ⟨1, .enumerateCollection "testdb" "coll" pVar [idxA], [0]⟩
      , ⟨2, .calculation ⟨exprPaEq5, false⟩ tVar, [1]⟩
      , ⟨3, .filter tVar, [2]⟩
      , ⟨4, .ret pVar, [3]⟩ ]
    nextIdCounter := 5 }

/-- The clone `useIndexRange`'s finder builds from `examplePlan`:
`EnumerateCollection` (id 1) replaced by an `IndexRange` node (fresh id 5)
carrying the index on `a` and the bound `[5, 5]`, relinked under the
Calculation node. -/
def exampleClone : ExecutionPlan :=
  { nodes :=
      [ ⟨0, .singleton, []⟩
      , ⟨2, .calculation ⟨exprPaEq5, false⟩ tVar, [5]⟩
      , ⟨3, .filter tVar, [2]⟩
      , ⟨4, .ret pVar, [3]⟩
      , ⟨5, .indexRange "testdb" "coll" pVar idxA
          [⟨some ⟨.valueNode (.intV 5), true⟩, some ⟨.valueNode (.intV 5), true⟩⟩], [0]⟩ ]
    nextIdCounter := 6 }

/-- A plan with two adjacent constant-true filters reading the same variable:
`Singleton → Calculation(t = true) → Filter(t) → Filter(t) → Return(t)`. -/
def chainPlan : ExecutionPlan :=
  { nodes :=
      [ ⟨0, .singleton, []⟩
      , ⟨1, .calculation ⟨.valueNode (.boolV true), false⟩ tVar, [0]⟩
      , ⟨2, .filter tVar, [1]⟩
      , ⟨3, .filter tVar, [2]⟩
      , ⟨4, .ret tVar, [3]⟩ ]
    nextIdCounter := 5 }

/-- A small plan whose only filter reads a variable set by an
EnumerateCollection node (so its truth value is not decidable at compile
time): `Singleton → EnumerateCollection → Filter(p) → Return(p)`. -/
def skipPlan : ExecutionPlan :=
  { nodes :=
      [ ⟨0, .singleton, []⟩
      , ⟨1, .enumerateCollection "testdb" "coll" pVar [], [0]⟩
      , ⟨2, .filter pVar, [1]⟩
      , ⟨3, .ret pVar, [2]⟩ ]
    nextIdCounter := 4 }

/-- A plan whose single filter is constant-false:
`Singleton → Calculation(t = false) → Filter(t) → Return(t)`. -/
def falsePlan : ExecutionPlan :=
  { nodes :=
      [ ⟨0, .singleton, []⟩
      , ⟨1, .calculation ⟨.valueNode (.boolV false), false⟩ tVar, [0]⟩
      , ⟨2, .filter tVar, [1]⟩
      , ⟨3, .ret tVar, [2]⟩ ]
    nextIdCounter := 4 }

/-- A plan with one constant-true filter surrounded by non-filter nodes:
`Singleton → Calculation(t = true) → Filter(t) → Return(t)`. -/
def truePlan : ExecutionPlan :=
  { nodes :=
      [ ⟨0, .singleton, []⟩
      , ⟨1, .calculation ⟨.valueNode (.boolV true), false⟩ tVar, [0]⟩
      , ⟨2, .filter tVar, [1]⟩
      , ⟨3, .ret tVar, [2]⟩ ]
    nextIdCounter := 4 }

/-- A plan with a dead throw-free calculation and a live one:
`Singleton → Calculation(t = p.a == 5, can throw: no) [dead] →
Calculation(u = 7) → Return(u)`; the variable `t` has no later use. -/
def deadCalcPlan : ExecutionPlan :=
  { nodes :=
      [ ⟨0, .singleton, []⟩
      , ⟨1, .calculation ⟨.valueNode (.boolV true), false⟩ tVar, [0]⟩
      , ⟨2, .calculation ⟨.valueNode (.intV 7), false⟩ ⟨2, "u"⟩, [1]⟩
      , ⟨3, .ret ⟨2, "u"⟩, [2]⟩ ]
    nextIdCounter := 4 }

/-!  Lemmas about `buildRangeInfo` on attribute-access chains. -/

/-- A non-empty chain elaborates to an attribute-access node. -/
theorem mkAttrAccessChain_isAttr (c : String) (cs : List String) (b : AstNode) :
    (mkAttrAccessChain (c :: cs) b).isAttrAccess = true := by
  simp [mkAttrAccessChain, AstNode.isAttrAccess]

/-- A non-empty chain does not elaborate to a value node. -/
theorem mkAttrAccessChain_notValue (c : String) (cs : List String) (b : AstNode) :
    (mkAttrAccessChain (c :: cs) b).isValueNode = false := by
  simp [mkAttrAccessChain, AstNode.isValueNode]

/-- On a pure attribute-access chain over a variable whose setter is an
EnumerateCollection node, `buildRangeInfo` records the variable's name as
`enumCollVar` and appends the dotted attribute path to `attr`, leaving the
accumulated ranges untouched. -/
theorem buildRangeInfo_chain (plan : ExecutionPlan) (chain : List String)
    (x : Variable) (e0 attr0 : String) (r : RangesInfo)
    (hx : x.name ≠ "") (hres : varResolvesToEnumColl plan x = true) :
    buildRangeInfo plan (mkAttrAccessChain chain (.reference x)) e0 attr0 r
      = (x.name, attr0 ++ chainPath chain, r) := by
  induction chain generalizing attr0 with
  | nil =>
    simp [mkAttrAccessChain, buildRangeInfo, hres, chainPath]
  | cons a rest ih =>
    simp only [mkAttrAccessChain, buildRangeInfo, ih attr0]
    simp [hx, chainPath, String.append_assoc]

/-- An attribute-access node is not a value node. -/
theorem isValueNode_false_of_isAttrAccess (A : AstNode) (h : A.isAttrAccess = true) :
    A.isValueNode = false := by
  cases A <;> simp_all [AstNode.isAttrAccess, AstNode.isValueNode]

/-- A value node is not an attribute-access node. -/
theorem isAttrAccess_false_of_isValueNode (V : AstNode) (h : V.isValueNode = true) :
    V.isAttrAccess = false := by
  cases V <;> simp_all [AstNode.isAttrAccess, AstNode.isValueNode]

/-- The `==` arm of `buildRangeInfo` with the attribute access on the left:
once the recursion on the attribute operand resolved a collection-bound
variable, an inclusive low and high bound equal to the value operand are
inserted. -/
theorem buildRangeInfo_eq_attrLeft (plan : ExecutionPlan) (A V : AstNode)
    (e0 attr0 : String) (r : RangesInfo) (e' attr' : String) (r' : RangesInfo)
    (hA : A.isAttrAccess = true) (hV : V.isValueNode = true)
    (h : buildRangeInfo plan A e0 attr0 r = (e', attr', r')) (he : e' ≠ "") :
    buildRangeInfo plan (.binEq A V) e0 attr0 r
      = (e', attr',
          r'.insert e' (attr'.dropRight 1) (some ⟨V, true⟩) (some ⟨V, true⟩)) := by
  have hVA := isAttrAccess_false_of_isValueNode V hV
  have hAV := isValueNode_false_of_isAttrAccess A hA
  simp [buildRangeInfo, hA, hV, hVA, hAV, h, he]

/-- The `==` arm of `buildRangeInfo` with the attribute access on the right. -/
theorem buildRangeInfo_eq_attrRight (plan : ExecutionPlan) (A V : AstNode)
    (e0 attr0 : String) (r : RangesInfo) (e' attr' : String) (r' : RangesInfo)
    (hA : A.isAttrAccess = true) (hV : V.isValueNode = true)
    (h : buildRangeInfo plan A e0 attr0 r = (e', attr', r')) (he : e' ≠ "") :
    buildRangeInfo plan (.binEq V A) e0 attr0 r
      = (e', attr',
          r'.insert e' (attr'.dropRight 1) (some ⟨V, true⟩) (some ⟨V, true⟩)) := by
  have hVA := isAttrAccess_false_of_isValueNode V hV
  have hAV := isValueNode_false_of_isAttrAccess A hA
  simp [buildRangeInfo, hA, hV, hVA, hAV, h, he]

/-- The ordering-comparison arm of `buildRangeInfo` with the attribute access
on the left (`attr op value`): exactly one single-sided bound is inserted — a
low bound for `>`/`>=`, a high bound for `<`/`<=` — inclusive exactly for
`<=`/`>=`. -/
theorem buildRangeInfo_cmp_attrLeft (plan : ExecutionPlan) (op : CmpOp)
    (A V : AstNode) (e0 attr0 : String) (r : RangesInfo)
    (e' attr' : String) (r' : RangesInfo)
    (hA : A.isAttrAccess = true) (hV : V.isValueNode = true)
    (h : buildRangeInfo plan A e0 attr0 r = (e', attr', r')) (he : e' ≠ "") :
    buildRangeInfo plan (op.toNode A V) e0 attr0 r
      = (e', attr',
          r'.insert e' (attr'.dropRight 1)
            (if op.isGtFamily then some ⟨V, op.inclusive⟩ else none)
            (if op.isGtFamily then none else some ⟨V, op.inclusive⟩)) := by
  have hVA := isAttrAccess_false_of_isValueNode V hV
  have hAV := isValueNode_false_of_isAttrAccess A hA
  cases op <;>
    simp [CmpOp.toNode, CmpOp.isGtFamily, CmpOp.inclusive,
      buildRangeInfo, hA, hV, hVA, hAV, h, he]

/-- The ordering-comparison arm of `buildRangeInfo` with the attribute access
on the right (`value op attr`): the direction is normalized, so `>`/`>=` now
constrain the attribute from above and `<`/`<=` from below. -/
theorem buildRangeInfo_cmp_attrRight (plan : ExecutionPlan) (op : CmpOp)
    (A V : AstNode) (e0 attr0 : String) (r : RangesInfo)
    (e' attr' : String) (r' : RangesInfo)
    (hA : A.isAttrAccess = true) (hV : V.isValueNode = true)
    (h : buildRangeInfo plan A e0 attr0 r = (e', attr', r')) (he : e' ≠ "") :
    buildRangeInfo plan (op.toNode V A) e0 attr0 r
      = (e', attr',
          r'.insert e' (attr'.dropRight 1)
            (if op.isGtFamily then none else some ⟨V, op.inclusive⟩)
            (if op.isGtFamily then some ⟨V, op.inclusive⟩ else none)) := by
  have hVA := isAttrAccess_false_of_isValueNode V hV
  have hAV := isValueNode_false_of_isAttrAccess A hA
  cases op <;>
    simp [CmpOp.toNode, CmpOp.isGtFamily, CmpOp.inclusive,
      buildRangeInfo, hA, hV, hVA, hAV, h, he]

/-- Claim C6: for every equality comparison between an attribute access and a
constant value, in either operand order, where the attribute's base variable
resolves through the setter chain to an EnumerateCollection-bound variable,
`buildRangeInfo` inserts into the `RangesInfo` accumulator both a low bound
and a high bound equal to that constant, each flagged inclusive. -/
theorem claim_C6 (plan : ExecutionPlan) (chain : List String) (x : Variable)
    (w : AqlValue) (e0 attr0 : String) (r : RangesInfo)
    (hc : chain ≠ []) (hx : x.name ≠ "")
    (hres : varResolvesToEnumColl plan x = true) :
    buildRangeInfo plan
        (.binEq (mkAttrAccessChain chain (.reference x)) (.valueNode w)) e0 attr0 r
      = (x.name, attr0 ++ chainPath chain,
          r.insert x.name ((attr0 ++ chainPath chain).dropRight 1)
            (some ⟨.valueNode w, true⟩) (some ⟨.valueNode w, true⟩))
    ∧ buildRangeInfo plan
        (.binEq (.valueNode w) (mkAttrAccessChain chain (.reference x))) e0 attr0 r
      = (x.name, attr0 ++ chainPath chain,
          r.insert x.name ((attr0 ++ chainPath chain).dropRight 1)
            (some ⟨.valueNode w, true⟩) (some ⟨.valueNode w, true⟩)) := by
  obtain ⟨c, cs, rfl⟩ := List.exists_cons_of_ne_nil hc
  have hchain := buildRangeInfo_chain plan (c :: cs) x e0 attr0 r hx hres
  refine ⟨?_, ?_⟩
  · exact buildRangeInfo_eq_attrLeft plan _ _ e0 attr0 r _ _ _
      (mkAttrAccessChain_isAttr c cs _) rfl hchain hx
  · exact buildRangeInfo_eq_attrRight plan _ _ e0 attr0 r _ _ _
      (mkAttrAccessChain_isAttr c cs _) rfl hchain hx

/-- Claim C5: for every ordering comparison (`<`, `<=`, `>`, `>=`) between an
attribute access and a constant value in either operand order,
`buildRangeInfo` contributes exactly one single-sided bound on that attribute
— a low bound when the attribute is constrained from below, a high bound when
from above, after normalizing which operand is the attribute — inclusive
exactly when the operator is `<=` or `>=`; and for the conjunction
`p.a > 1 AND p.a < 10` the accumulated bounds on attribute `a` are
low = 1 exclusive and high = 10 exclusive. -/
theorem claim_C5 (plan : ExecutionPlan) (op : CmpOp) (chain : List String)
    (x : Variable) (w : AqlValue) (e0 attr0 : String) (r : RangesInfo)
    (hc : chain ≠ []) (hx : x.name ≠ "")
    (hres : varResolvesToEnumColl plan x = true) :
    buildRangeInfo plan
        (op.toNode (mkAttrAccessChain chain (.reference x)) (.valueNode w)) e0 attr0 r
      = (x.name, attr0 ++ chainPath chain,
          r.insert x.name ((attr0 ++ chainPath chain).dropRight 1)
            (if op.isGtFamily then some ⟨.valueNode w, op.inclusive⟩ else none)
            (if op.isGtFamily then none else some ⟨.valueNode w, op.inclusive⟩))
    ∧ buildRangeInfo plan
        (op.toNode (.valueNode w) (mkAttrAccessChain chain (.reference x))) e0 attr0 r
      = (x.name, attr0 ++ chainPath chain,
          r.insert x.name ((attr0 ++ chainPath chain).dropRight 1)
            (if op.isGtFamily then none else some ⟨.valueNode w, op.inclusive⟩)
            (if op.isGtFamily then some ⟨.valueNode w, op.inclusive⟩ else none))
    ∧ buildRangeInfo examplePlan
        (.binAnd (.binGt (.attributeAccess "a" (.reference pVar)) (.valueNode (.intV 1)))
                 (.binLt (.attributeAccess "a" (.reference pVar)) (.valueNode (.intV 10))))
        "" "" []
      = ("p", "a.",
          [("p", "a", ⟨some ⟨.valueNode (.intV 1), false⟩,
                       some ⟨.valueNode (.intV 10), false⟩⟩)]) := by
  obtain ⟨c, cs, rfl⟩ := List.exists_cons_of_ne_nil hc
  have hchain := buildRangeInfo_chain plan (c :: cs) x e0 attr0 r hx hres
  refine ⟨?_, ?_, by decide⟩
  · exact buildRangeInfo_cmp_attrLeft plan op _ _ e0 attr0 r _ _ _
      (mkAttrAccessChain_isAttr c cs _) rfl hchain hx
  · exact buildRangeInfo_cmp_attrRight plan op _ _ e0 attr0 r _ _ _
      (mkAttrAccessChain_isAttr c cs _) rfl hchain hx

/-- Witness for C5 at a concrete input: `p.a > 1` over the worked plan
contributes exactly a low bound, exclusive. -/
theorem claim_C5_witness :
    (["a"] ≠ ([] : List String) ∧ pVar.name ≠ "" ∧
      varResolvesToEnumColl examplePlan pVar = true) ∧
    buildRangeInfo examplePlan
        (CmpOp.gt.toNode (mkAttrAccessChain ["a"] (.reference pVar))
          (.valueNode (.intV 1))) "" "" []
      = (pVar.name, "" ++ chainPath ["a"],
          RangesInfo.insert [] pVar.name (("" ++ chainPath ["a"]).dropRight 1)
            (if CmpOp.gt.isGtFamily then some ⟨.valueNode (.intV 1), CmpOp.gt.inclusive⟩
             else none)
            (if CmpOp.gt.isGtFamily then none
             else some ⟨.valueNode (.intV 1), CmpOp.gt.inclusive⟩)) :=
  ⟨⟨by decide, by decide, by decide⟩,
    (claim_C5 examplePlan .gt ["a"] pVar (.intV 1) "" "" []
      (by decide) (by decide) (by decide)).1⟩

/-- Witness for C6 at a concrete input: the expression `p.a == 5` over the
worked plan, whose variable `p` is set by the EnumerateCollection node. -/
theorem claim_C6_witness :
    (["a"] ≠ ([] : List String) ∧ pVar.name ≠ "" ∧
      varResolvesToEnumColl examplePlan pVar = true) ∧
    buildRangeInfo examplePlan
        (.binEq (mkAttrAccessChain ["a"] (.reference pVar)) (.valueNode (.intV 5)))
        "" "" []
      = (pVar.name, "" ++ chainPath ["a"],
          RangesInfo.insert [] pVar.name (("" ++ chainPath ["a"]).dropRight 1)
            (some ⟨.valueNode (.intV 5), true⟩) (some ⟨.valueNode (.intV 5), true⟩)) :=
  ⟨⟨by decide, by decide, by decide⟩,
    (claim_C6 examplePlan ["a"] pVar (.intV 5) "" "" []
      (by decide) (by decide) (by decide)).1⟩

/-!  The cursor-API claims. -/

/-- Claim C9: the code violates the claim's 404 for an unknown cursor.  For
`PUT /_api/cursor/{id}` with one suffix naming no live cursor,
`put_api_cursor` answers through `actions.resultBad` — HTTP status 400 —
carrying the cursor-not-found error number, although the handler's own doc
block (`@RESTRETURNCODE{404}`, the `RestCursorInvalidCursorIdentifier`
example asserting `response.code === 404`) and the claim say 404, and
`delete_api_cursor` uses `resultNotFound` for the same condition.  The
missing-suffix half of the claim holds: no suffix yields HTTP 400. -/
theorem claim_C9_code_behavior :
    put_api_cursor [] ["123123"] = resultBad ERROR_CURSOR_NOT_FOUND
    ∧ (put_api_cursor [] ["123123"]).status = 400
    ∧ put_api_cursor [] ["123123"] ≠ resultNotFound ERROR_CURSOR_NOT_FOUND
    ∧ (put_api_cursor [] []).status = 400
    ∧ (put_api_cursor [] []).errorNum = ERROR_HTTP_BAD_PARAMETER := by
  refine ⟨rfl, rfl, by decide, rfl, rfl⟩

/-- The defaults-only shape of the options construction when the body has no
(or no object-valued) `options` attribute. -/
theorem post_options_none (json : CursorRequestBody) (h : json.options = none) :
    post_api_cursor_options json
      = [("count", jsOr json.count (.boolV false)),
         ("batchSize", jsOr json.batchSize (.numV 1000)),
         ("ttl", json.ttl)] := by
  simp only [post_api_cursor_options, h]

/-- The shape of the options construction when the body carries an options
object: the merge loop folds property assignments over the defaults. -/
theorem post_options_some (json : CursorRequestBody)
    (opts : List (String × JsValue)) (h : json.options = some opts) :
    post_api_cursor_options json
      = opts.foldl (fun acc kv => setProp acc kv.1 kv.2)
          [("count", jsOr json.count (.boolV false)),
           ("batchSize", jsOr json.batchSize (.numV 1000)),
           ("ttl", json.ttl)] := by
  simp only [post_api_cursor_options, h]

/-- Assigning a different key does not change a property read. -/
theorem getProp_setProp_ne (l : List (String × JsValue)) (k k' : String)
    (v : JsValue) (h : k' ≠ k) : getProp (setProp l k' v) k = getProp l k := by
  induction l with
  | nil =>
    unfold setProp getProp
    rw [List.find?_cons_of_neg _ (by simp [h])]
  | cons kv rest ih =>
    obtain ⟨k0, v0⟩ := kv
    unfold setProp
    by_cases h0 : k0 = k'
    · rw [if_pos h0]
      unfold getProp
      rw [List.find?_cons_of_neg _ (by simp [h0, h]),
        List.find?_cons_of_neg _ (by simp [h0, h])]
    · rw [if_neg h0]
      by_cases hk : k0 = k
      · unfold getProp
        rw [List.find?_cons_of_pos _ (by simp [hk]),
          List.find?_cons_of_pos _ (by simp [hk])]
      · unfold getProp
        rw [List.find?_cons_of_neg _ (by simp [hk]),
          List.find?_cons_of_neg _ (by simp [hk])]
        exact ih

/-- The merge loop leaves a key untouched when the options object does not
carry it. -/
theorem getProp_merge_ne (k : String) (opts : List (String × JsValue)) :
    ∀ (l : List (String × JsValue)), (∀ kv ∈ opts, kv.1 ≠ k) →
    getProp (opts.foldl (fun acc kv => setProp acc kv.1 kv.2) l) k
      = getProp l k := by
  induction opts with
  | nil => intro l _; rfl
  | cons kv rest ih =>
    intro l hk
    rw [List.foldl_cons,
      ih (setProp l kv.1 kv.2) (fun x hx => hk x (List.mem_cons_of_mem kv hx))]
    exact getProp_setProp_ne l k kv.1 kv.2 (hk kv (List.mem_cons_self kv rest))

/-- Reading `batchSize` from the defaults record. -/
theorem getProp_defaults_batchSize (c b t : JsValue) :
    getProp [("count", c), ("batchSize", b), ("ttl", t)] "batchSize" = some b := by
  unfold getProp
  rw [List.find?_cons_of_neg _ (by simp), List.find?_cons_of_pos _ (by simp)]
  rfl

/-- Reading `count` from the defaults record. -/
theorem getProp_defaults_count (c b t : JsValue) :
    getProp [("count", c), ("batchSize", b), ("ttl", t)] "count" = some c := by
  unfold getProp
  rw [List.find?_cons_of_pos _ (by simp)]
  rfl

/-- Counterexample to claim C10 as stated: the body
`{batchSize: 0, options: {batchSize: 0, count: true}}` sets the top-level
`batchSize` to the falsy 0 (the claim's hypothesis), yet the `json.options`
merge loop (`api-cursor.js` lines 353-359) copies the options properties over
the computed defaults, so the cursor is created with batchSize 0 — not 1000 —
and with count true, and the client has requested a batch size of zero. -/
theorem claim_C10_counterexample :
    (⟨.strV "q", .undef, .numV 0, .undef,
        some [("batchSize", .numV 0), ("count", .boolV true)]⟩ :
      CursorRequestBody).batchSize = .numV 0
    ∧ getProp (post_api_cursor_options
        ⟨.strV "q", .undef, .numV 0, .undef,
          some [("batchSize", .numV 0), ("count", .boolV true)]⟩) "batchSize"
        = some (.numV 0)
    ∧ ¬ (getProp (post_api_cursor_options
        ⟨.strV "q", .undef, .numV 0, .undef,
          some [("batchSize", .numV 0), ("count", .boolV true)]⟩) "batchSize"
        = some (.numV 1000))
    ∧ getProp (post_api_cursor_options
        ⟨.strV "q", .undef, .numV 0, .undef,
          some [("batchSize", .numV 0), ("count", .boolV true)]⟩) "count"
        = some (.boolV true)
    ∧ ¬ (getProp (post_api_cursor_options
        ⟨.strV "q", .undef, .numV 0, .undef,
          some [("batchSize", .numV 0), ("count", .boolV true)]⟩) "count"
        = some (.boolV false)) := by
  refine ⟨rfl, by decide, by decide, by decide, by decide⟩

/-- Claim C10, amended: when the body's options object, if present, carries
no `batchSize` property of its own, a falsy top-level `batchSize` (0, null,
false) yields a cursor created with batchSize 1000, exactly as if the
attribute had been omitted; a falsy or absent `count` not overridden by an
`options.count` property yields count = false; and no top-level `batchSize`
value can produce a batch size of zero — only the options merge loop of
lines 353-359 can. -/
theorem claim_C10_amended (json : CursorRequestBody)
    (hopt : ∀ kv ∈ json.options.getD [], (kv : String × JsValue).1 ≠ "batchSize") :
    ((json.batchSize = .numV 0 ∨ json.batchSize = .nullV ∨
        json.batchSize = .boolV false) →
      getProp (post_api_cursor_options json) "batchSize" = some (.numV 1000)
      ∧ getProp (post_api_cursor_options json) "batchSize"
          = getProp (post_api_cursor_options { json with batchSize := .undef })
              "batchSize")
    ∧ ((json.count.truthy = false ∧
          ∀ kv ∈ json.options.getD [], (kv : String × JsValue).1 ≠ "count") →
        getProp (post_api_cursor_options json) "count" = some (.boolV false))
    ∧ getProp (post_api_cursor_options json) "batchSize" ≠ some (.numV 0) := by
  have hbs : ∀ (j : CursorRequestBody), j.options = json.options →
      getProp (post_api_cursor_options j) "batchSize"
        = some (jsOr j.batchSize (.numV 1000)) := by
    intro j hj
    cases ho : j.options with
    | none =>
      rw [post_options_none j ho]
      exact getProp_defaults_batchSize _ _ _
    | some opts =>
      rw [post_options_some j opts ho]
      rw [getProp_merge_ne "batchSize" opts _ ?hno]
      · exact getProp_defaults_batchSize _ _ _
      case hno =>
        rw [hj] at ho
        rw [ho] at hopt
        simpa using hopt
  refine ⟨?_, ?_, ?_⟩
  · intro hfal
    have h1000 : jsOr json.batchSize (.numV 1000) = .numV 1000 := by
      rcases hfal with h | h | h <;> rw [h] <;> rfl
    constructor
    · rw [hbs json rfl, h1000]
    · rw [hbs json rfl, h1000, hbs { json with batchSize := .undef } rfl]
      rfl
  · rintro ⟨hc, hcopt⟩
    have hcval : jsOr json.count (.boolV false) = .boolV false := by
      unfold jsOr
      rw [hc]
      rfl
    cases ho : json.options with
    | none =>
      rw [post_options_none json ho, getProp_defaults_count, hcval]
    | some opts =>
      rw [post_options_some json opts ho]
      rw [getProp_merge_ne "count" opts _ (by rw [ho] at hcopt; simpa using hcopt)]
      rw [getProp_defaults_count, hcval]
  · rw [hbs json rfl]
    intro hz
    rw [Option.some.injEq] at hz
    unfold jsOr at hz
    by_cases ht : json.batchSize.truthy
    · rw [if_pos ht] at hz
      rw [hz] at ht
      simp [JsValue.truthy] at ht
    · rw [if_neg ht] at hz
      cases hz

/-- Witness for the amended C10 at the concrete request body
`{batchSize: 0}` with no options object. -/
theorem claim_C10_amended_witness :
    ((∀ kv ∈ (⟨.undef, .undef, .numV 0, .undef, none⟩ :
        CursorRequestBody).options.getD [],
        (kv : String × JsValue).1 ≠ "batchSize")
      ∧ ((⟨.undef, .undef, .numV 0, .undef, none⟩ :
          CursorRequestBody).batchSize = .numV 0 ∨
        (⟨.undef, .undef, .numV 0, .undef, none⟩ :
          CursorRequestBody).batchSize = .nullV ∨
        (⟨.undef, .undef, .numV 0, .undef, none⟩ :
          CursorRequestBody).batchSize = .boolV false))
    ∧ getProp (post_api_cursor_options
        ⟨.undef, .undef, .numV 0, .undef, none⟩) "batchSize"
        = some (.numV 1000) :=
  ⟨⟨by decide, Or.inl rfl⟩,
    ((claim_C10_amended ⟨.undef, .undef, .numV 0, .undef, none⟩
        (by decide)).1 (Or.inl rfl)).1⟩

/-!  The UseIndexRange claims. -/

/-- Claim C1: the code violates the claim.  On the spec's worked plan
`Singleton → EnumerateCollection(coll) → Calculation(t = p.a == 5) →
Filter(t) → Return(p)` with one index on `a`, the finder walk does build the
expected candidate — the whole plan cloned with `EnumerateCollection`
replaced by an `IndexRange(coll, idx_a, bounds{a:[5,5]})` node relinked under
the Calculation node (second conjunct) — but because
`CalculationNodeFinder::_out` is a by-value field (`Optimizer::PlanList
_out`, line 250, initialised from the caller's list at line 257), the clone
is pushed onto a copy that dies with the finder, and `useIndexRange` returns
the caller's output list unchanged (first conjunct): only the kept original
remains, one candidate instead of the claimed at-least-two. -/
theorem claim_C1_code_behavior :
    useIndexRange examplePlan [] = ([], true)
    ∧ (finderRun examplePlan tVar [] 3).out = [exampleClone]
    ∧ exampleClone.getNodeById 1 = none
    ∧ exampleClone.getNodeById 5
        = some ⟨5, .indexRange "testdb" "coll" pVar idxA
            [⟨some ⟨.valueNode (.intV 5), true⟩, some ⟨.valueNode (.intV 5), true⟩⟩], [0]⟩
    ∧ exampleClone.getNodeById 2
        = some ⟨2, .calculation ⟨exprPaEq5, false⟩ tVar, [5]⟩ := by
  refine ⟨by decide, by decide, by decide, by decide, by decide⟩

/-- Claim C7: if constructing or registering the `IndexRangeNode` for any
index of the candidate list raises, the per-index loop discards the partial
clone and node (nothing of them reaches the finder's state, which is the
loop's only output) and propagates the exception; in particular no candidate
is appended for the failing index, and the input plan value is untouched by
construction of the pure embedding. -/
theorem claim_C7 (failsOn : Index → Bool) (plan : ExecutionPlan)
    (enumId prevId : Nat) (vocbase collection : String) (outVar : Variable)
    (ri : List RangeInfo) (st : FinderState) (idxs : List Index)
    (hfail : idxs.any failsOn = true) :
    processIndexes failsOn plan enumId prevId vocbase collection outVar ri st idxs
      = .error () := by
  induction idxs generalizing st with
  | nil => simp at hfail
  | cons idx rest ih =>
    rw [List.any_cons] at hfail
    by_cases h : failsOn idx
    · simp [processIndexes, h]
    · simp only [h, Bool.false_or] at hfail
      simp [processIndexes, h, ih _ hfail]

/-- Witness for C7: a failing construction for the concrete index on `a`
propagates as an error out of the loop. -/
theorem claim_C7_witness :
    ([idxA].any (fun _ => true) = true) ∧
    processIndexes (fun _ => true) examplePlan 1 2 "testdb" "coll" pVar []
        ⟨[], some 2, []⟩ [idxA] = .error () :=
  ⟨by decide,
    claim_C7 (fun _ => true) examplePlan 1 2 "testdb" "coll" pVar []
      ⟨[], some 2, []⟩ [idxA] (by decide)⟩

/-!  The RemoveUnnecessaryFilters claims. -/

/-- A scan whose every node is skipped leaves the accumulator untouched. -/
theorem ruf_foldl_skip (l : List ExecutionNode) (p : ExecutionPlan) (U : List Nat)
    (h : ∀ n ∈ l, filterVerdict p n = none) :
    l.foldl rufStep (p, U) = (p, U) := by
  induction l with
  | nil => rfl
  | cons n rest ih =>
    rw [List.foldl_cons]
    have hn : rufStep (p, U) n = (p, U) := by
      simp [rufStep, h n (List.mem_cons_self n rest)]
    rw [hn]
    exact ih (fun m hm => h m (List.mem_cons_of_mem n hm))

/-- Claim C8: a Filter whose single input variable has no setter, whose
setter is not a Calculation node, or whose setter's expression is not
constant (that is, `filterVerdict` yields `none`) is skipped: the scan step
leaves the plan and the unlink batch untouched — the node is neither
recorded for unlinking nor replaced and no node is registered on its account
— and a plan all of whose Filter nodes are skipped passes through
`removeUnnecessaryFiltersRule` entirely unchanged. -/
theorem claim_C8 (p : ExecutionPlan) (U : List Nat) (n : ExecutionNode)
    (h : filterVerdict p n = none) :
    rufStep (p, U) n = (p, U)
    ∧ ((∀ m ∈ p.findNodesOfType .FILTER, filterVerdict p m = none) →
        removeUnnecessaryFiltersRule p = (p, true)) := by
  constructor
  · simp [rufStep, h]
  · intro hall
    unfold removeUnnecessaryFiltersRule ruf_scan
    rw [ruf_foldl_skip _ _ _ hall]
    rfl

/-- Witness for C8: the filter of `skipPlan` reads a collection-bound
variable, so its verdict is `none` and the rule leaves the plan unchanged. -/
theorem claim_C8_witness :
    (filterVerdict skipPlan ⟨2, .filter pVar, [1]⟩ = none ∧
      (∀ m ∈ skipPlan.findNodesOfType .FILTER, filterVerdict skipPlan m = none)) ∧
    (rufStep (skipPlan, []) ⟨2, .filter pVar, [1]⟩ = (skipPlan, []) ∧
      removeUnnecessaryFiltersRule skipPlan = (skipPlan, true)) :=
  ⟨⟨by decide, by decide⟩,
    ⟨(claim_C8 skipPlan [] ⟨2, .filter pVar, [1]⟩ (by decide)).1,
      (claim_C8 skipPlan [] ⟨2, .filter pVar, [1]⟩ (by decide)).2 (by decide)⟩⟩

/-!  Graph lemmas for plans with distinct node ids. -/

/-- `find?` by id on a list with distinct ids returns the member itself. -/
theorem find?_by_id (l : List ExecutionNode) (x : ExecutionNode)
    (hnd : (l.map (fun m => m.id)).Nodup) (hx : x ∈ l) :
    l.find? (fun m => m.id = x.id) = some x := by
  induction l with
  | nil => cases hx
  | cons a rest ih =>
    rw [List.map_cons, List.nodup_cons] at hnd
    rcases List.mem_cons.mp hx with h | h
    · subst h
      exact List.find?_cons_of_pos _ (by simp)
    · have hxid : x.id ∈ rest.map (fun m => m.id) :=
        List.mem_map_of_mem (fun m => m.id) h
      have hne : ¬ (a.id = x.id) := fun he => hnd.1 (he ▸ hxid)
      rw [List.find?_cons_of_neg _ (by simpa using hne)]
      exact ih hnd.2 h

/-- `getNodeById` on a well-formed plan returns the member with that id. -/
theorem getNodeById_of_mem (p : ExecutionPlan) (x : ExecutionNode)
    (hnd : (idsOf p).Nodup) (hx : x ∈ p.nodes) :
    p.getNodeById x.id = some x :=
  find?_by_id p.nodes x hnd hx

/-- Two members of a plan with distinct ids that share an id are equal. -/
theorem mem_id_inj (p : ExecutionPlan) (hnd : (idsOf p).Nodup)
    {x y : ExecutionNode} (hx : x ∈ p.nodes) (hy : y ∈ p.nodes)
    (h : x.id = y.id) : x = y :=
  List.inj_on_of_nodup_map hnd hx hy h

/-- Membership in `parentsOf`: a parent is a plan member listing the id among
its dependencies. -/
theorem mem_parentsOf (p : ExecutionPlan) (nid : Nat) (m : ExecutionNode) :
    m ∈ p.parentsOf nid ↔ m ∈ p.nodes ∧ nid ∈ m.deps := by
  unfold ExecutionPlan.parentsOf
  simp [List.mem_filter]

/-- The shape of the constant-false branch of `rufStep`: the fresh NoResults
node is appended, the filter removed, the new node takes the filter's
dependencies and the single parent is rewired onto it. -/
theorem rufStep_false_shape (p : ExecutionPlan) (U : List Nat)
    (n par : ExecutionNode)
    (hnd : (idsOf p).Nodup)
    (hn : n ∈ p.nodes) (hv : filterVerdict p n = some false)
    (hpar : p.parentsOf n.id = [par]) :
    rufStep (p, U) n =
      ({ nodes := ((p.nodes ++ [(⟨p.nextIdCounter, .noResults, []⟩ : ExecutionNode)]).filter
            (fun (m : ExecutionNode) => m.id ≠ n.id)).map (fun (m : ExecutionNode) =>
              if m.id = p.nextIdCounter then { m with deps := n.deps }
              else if m.id = par.id then
                { m with deps :=
                    m.deps.map (fun d => if d = n.id then p.nextIdCounter else d) }
              else m),
         nextIdCounter := p.nextIdCounter + 1 }, U) := by
  have hfind : List.find? (fun m => m.id = n.id)
      (p.nodes ++ [⟨p.nextIdCounter, .noResults, []⟩]) = some n := by
    rw [List.find?_append, find?_by_id p.nodes n hnd hn]
    rfl
  simp only [rufStep, hv, hpar]
  simp only [ExecutionPlan.registerNode, ExecutionPlan.replaceNode,
    ExecutionPlan.getNodeById]
  simp only [hfind]

/-- Claim C3: a Filter whose single input variable is set by a Calculation
with a constant-false expression is replaced by a freshly registered
NoResults node — its id drawn from `nextId`, hence not yet present — under
the Filter's single parent (the `TRI_ASSERT(parents.size() == 1)` of line 93
is mirrored by the singleton-parents hypothesis): after the step the fresh
NoResults node carries the Filter's dependencies, the parent's dependency on
the Filter is redirected to it, the Filter is gone from the plan, and the
unlink batch is untouched; when the plan has no other Filter node this is
exactly what `removeUnnecessaryFiltersRule` returns. -/
theorem claim_C3 (p : ExecutionPlan) (U : List Nat) (n par : ExecutionNode)
    (hnd : (idsOf p).Nodup) (hbound : ∀ x ∈ p.nodes, x.id < p.nextIdCounter)
    (hn : n ∈ p.nodes) (hv : filterVerdict p n = some false)
    (hpar : p.parentsOf n.id = [par]) (hself : n.id ∉ n.deps) :
    (rufStep (p, U) n).2 = U
    ∧ ¬ containsIdP p p.nextIdCounter
    ∧ (∃ x ∈ (rufStep (p, U) n).1.nodes,
         x.id = p.nextIdCounter ∧ x.data = .noResults ∧ x.deps = n.deps)
    ∧ (∃ x ∈ (rufStep (p, U) n).1.nodes, x.id = par.id ∧ x.data = par.data ∧
         x.deps = par.deps.map (fun d => if d = n.id then p.nextIdCounter else d))
    ∧ ¬ containsIdP (rufStep (p, U) n).1 n.id
    ∧ (rufStep (p, U) n).1.nextIdCounter = p.nextIdCounter + 1
    ∧ (p.findNodesOfType .FILTER = [n] →
        removeUnnecessaryFiltersRule p = ((rufStep (p, U) n).1, true)) := by
  have hparmem : par ∈ p.nodes ∧ n.id ∈ par.deps := by
    have : par ∈ p.parentsOf n.id := by rw [hpar]; exact List.mem_singleton.mpr rfl
    exact (mem_parentsOf p n.id par).mp this
  have hparne : par.id ≠ n.id := by
    intro he
    have : par = n := mem_id_inj p hnd hparmem.1 hn he
    exact hself (this ▸ hparmem.2)
  have hnlt : n.id < p.nextIdCounter := hbound n hn
  have hparlt : par.id < p.nextIdCounter := hbound par hparmem.1
  rw [rufStep_false_shape p U n par hnd hn hv hpar]
  refine ⟨rfl, ?_, ?_, ?_, ?_, rfl, ?_⟩
  · rintro ⟨x, hx, he⟩
    exact absurd he (Nat.ne_of_lt (hbound x hx))
  · refine ⟨⟨p.nextIdCounter, .noResults, n.deps⟩, ?_, rfl, rfl, rfl⟩
    have hmem : (⟨p.nextIdCounter, .noResults, []⟩ : ExecutionNode) ∈
        (p.nodes ++ [(⟨p.nextIdCounter, .noResults, []⟩ : ExecutionNode)]).filter
          (fun (m : ExecutionNode) => m.id ≠ n.id) := by
      rw [List.mem_filter]
      exact ⟨List.mem_append_right _ (List.mem_singleton.mpr rfl),
        by simp [Nat.ne_of_gt hnlt]⟩
    have := List.mem_map_of_mem (fun (m : ExecutionNode) =>
      if m.id = p.nextIdCounter then { m with deps := n.deps }
      else if m.id = par.id then
        { m with deps := m.deps.map (fun d => if d = n.id then p.nextIdCounter else d) }
      else m) hmem
    simpa using this
  · refine ⟨ExecutionNode.mk par.id par.data
        (par.deps.map (fun d => if d = n.id then p.nextIdCounter else d)),
      ?_, rfl, rfl, rfl⟩
    have hmem : par ∈
        (p.nodes ++ [(⟨p.nextIdCounter, .noResults, []⟩ : ExecutionNode)]).filter
          (fun (m : ExecutionNode) => m.id ≠ n.id) := by
      rw [List.mem_filter]
      exact ⟨List.mem_append_left _ hparmem.1, by simp [hparne]⟩
    have := List.mem_map_of_mem (fun (m : ExecutionNode) =>
      if m.id = p.nextIdCounter then { m with deps := n.deps }
      else if m.id = par.id then
        { m with deps := m.deps.map (fun d => if d = n.id then p.nextIdCounter else d) }
      else m) hmem
    simpa [Nat.ne_of_lt hparlt] using this
  · rintro ⟨x, hx, he⟩
    rcases List.mem_map.mp hx with ⟨y, hy, rfl⟩
    rcases List.mem_filter.mp hy with ⟨_, hyne⟩
    have hid : (if y.id = p.nextIdCounter then { y with deps := n.deps }
        else if y.id = par.id then
          { y with deps := y.deps.map (fun d => if d = n.id then p.nextIdCounter else d) }
        else y).id = y.id := by
      split <;> try rfl
      split <;> rfl
    rw [hid] at he
    simp [he] at hyne
  · intro hsnap
    unfold removeUnnecessaryFiltersRule ruf_scan
    rw [hsnap, List.foldl_cons, List.foldl_nil,
      rufStep_false_shape p [] n par hnd hn hv hpar]
    rfl

/-- Witness for C3 at the concrete plan `falsePlan`, whose only filter reads
the constant-false variable `t`: the filter (id 2) is replaced by the fresh
NoResults node (id 4) under its unique parent, the Return node. -/
theorem claim_C3_witness :
    ((idsOf falsePlan).Nodup ∧
      (∀ x ∈ falsePlan.nodes, x.id < falsePlan.nextIdCounter) ∧
      (⟨2, .filter tVar, [1]⟩ : ExecutionNode) ∈ falsePlan.nodes ∧
      filterVerdict falsePlan ⟨2, .filter tVar, [1]⟩ = some false ∧
      falsePlan.parentsOf 2 = [⟨3, .ret tVar, [2]⟩] ∧
      (2 : Nat) ∉ [1] ∧
      falsePlan.findNodesOfType .FILTER = [⟨2, .filter tVar, [1]⟩]) ∧
    (¬ containsIdP (rufStep (falsePlan, []) ⟨2, .filter tVar, [1]⟩).1 2 ∧
      removeUnnecessaryFiltersRule falsePlan
        = ((rufStep (falsePlan, []) ⟨2, .filter tVar, [1]⟩).1, true)) :=
  ⟨⟨by decide, by decide, by decide, by decide, by decide, by decide, by decide⟩,
    ⟨(claim_C3 falsePlan [] ⟨2, .filter tVar, [1]⟩ ⟨3, .ret tVar, [2]⟩
        (by decide) (by decide) (by decide) (by decide) (by decide)
        (by decide)).2.2.2.2.1,
      (claim_C3 falsePlan [] ⟨2, .filter tVar, [1]⟩ ⟨3, .ret tVar, [2]⟩
        (by decide) (by decide) (by decide) (by decide) (by decide)
        (by decide)).2.2.2.2.2.2 (by decide)⟩⟩

/-!  Lemmas about batched unlinking. -/

/-- The shape of `unlinkNode` at a present single-dependency node: the node
is removed and every remaining dependency entry naming it is remapped to its
single dependency. -/
theorem unlinkNode_shape (p : ExecutionPlan) (m : ExecutionNode) (du : Nat)
    (hnd : (idsOf p).Nodup) (hm : m ∈ p.nodes) (hdep : m.deps = [du]) :
    p.unlinkNode m.id =
      { nodes := (p.nodes.filter (fun (x : ExecutionNode) => x.id ≠ m.id)).map
          (fun (x : ExecutionNode) =>
            ExecutionNode.mk x.id x.data
              (x.deps.map (fun y => if y = m.id then du else y))),
        nextIdCounter := p.nextIdCounter } := by
  have hfind := getNodeById_of_mem p m hnd hm
  simp only [ExecutionPlan.unlinkNode, hfind, hdep]

/-- Unlinking a present single-dependency node removes exactly that id. -/
theorem containsIdP_unlinkNode (p : ExecutionPlan) (m : ExecutionNode) (du : Nat)
    (hnd : (idsOf p).Nodup) (hm : m ∈ p.nodes) (hdep : m.deps = [du]) (i : Nat) :
    containsIdP (p.unlinkNode m.id) i ↔ (containsIdP p i ∧ i ≠ m.id) := by
  rw [unlinkNode_shape p m du hnd hm hdep]
  unfold containsIdP
  constructor
  · rintro ⟨x, hx, rfl⟩
    rcases List.mem_map.mp hx with ⟨y, hy, rfl⟩
    rcases List.mem_filter.mp hy with ⟨hyp, hyne⟩
    exact ⟨⟨y, hyp, rfl⟩, by simpa using hyne⟩
  · rintro ⟨⟨x, hx, rfl⟩, hne⟩
    refine ⟨ExecutionNode.mk x.id x.data
        (x.deps.map (fun d => if d = m.id then du else d)),
      List.mem_map_of_mem _ (List.mem_filter.mpr ⟨hx, by simpa using hne⟩), rfl⟩

/-- A survivor of `unlinkNode` keeps its id and data; its dependencies are
remapped pointwise from the unlinked id to that node's single dependency. -/
theorem unlinkNode_member_shape (p : ExecutionPlan) (m : ExecutionNode) (du : Nat)
    (hnd : (idsOf p).Nodup) (hm : m ∈ p.nodes) (hdep : m.deps = [du])
    (x : ExecutionNode) (hx : x ∈ p.nodes) (hne : x.id ≠ m.id) :
    ExecutionNode.mk x.id x.data (x.deps.map (fun d => if d = m.id then du else d))
      ∈ (p.unlinkNode m.id).nodes := by
  rw [unlinkNode_shape p m du hnd hm hdep]
  exact List.mem_map_of_mem _ (List.mem_filter.mpr ⟨hx, by simpa using hne⟩)

/-- `unlinkNode` at a present single-dependency node preserves distinctness
of node ids. -/
theorem nodup_unlinkNode (p : ExecutionPlan) (m : ExecutionNode) (du : Nat)
    (hnd : (idsOf p).Nodup) (hm : m ∈ p.nodes) (hdep : m.deps = [du]) :
    (idsOf (p.unlinkNode m.id)).Nodup := by
  rw [unlinkNode_shape p m du hnd hm hdep]
  unfold idsOf at *
  rw [List.map_map]
  exact List.Nodup.sublist
    (List.Sublist.map (fun x => x.id) (List.filter_sublist p.nodes)) hnd

/-- Batched unlinking of distinct, present, single-dependency nodes removes
exactly the batch: an id survives `unlinkNodes` iff it was present and is not
in the batch. -/
theorem containsIdP_unlinkNodes (U : List Nat) (p : ExecutionPlan)
    (hnd : (idsOf p).Nodup) (hU : U.Nodup)
    (hm : ∀ u ∈ U, ∃ m ∈ p.nodes, m.id = u ∧ m.deps.length = 1) (i : Nat) :
    containsIdP (p.unlinkNodes U) i ↔ (containsIdP p i ∧ i ∉ U) := by
  induction U generalizing p with
  | nil => simp [ExecutionPlan.unlinkNodes]
  | cons u rest ih =>
    obtain ⟨m, hmem, hid, hlen⟩ := hm u (List.mem_cons_self u rest)
    obtain ⟨du, hdu⟩ := List.length_eq_one.mp hlen
    rw [List.nodup_cons] at hU
    subst hid
    have hstep : p.unlinkNodes (m.id :: rest) = (p.unlinkNode m.id).unlinkNodes rest := by
      unfold ExecutionPlan.unlinkNodes
      rw [List.foldl_cons]
    rw [hstep]
    have hnd' : (idsOf (p.unlinkNode m.id)).Nodup :=
      nodup_unlinkNode p m du hnd hmem hdu
    have hm' : ∀ u' ∈ rest, ∃ m' ∈ (p.unlinkNode m.id).nodes,
        m'.id = u' ∧ m'.deps.length = 1 := by
      intro u' hu'
      obtain ⟨m', hmem', hid', hlen'⟩ := hm u' (List.mem_cons_of_mem _ hu')
      have hne : m'.id ≠ m.id := by
        rw [hid']
        intro he
        exact hU.1 (he ▸ hu')
      exact ⟨ExecutionNode.mk m'.id m'.data
          (m'.deps.map (fun d => if d = m.id then du else d)),
        unlinkNode_member_shape p m du hnd hmem hdu m' hmem' hne,
        hid', by simpa using hlen'⟩
    rw [ih (p.unlinkNode m.id) hnd' hU.2 hm',
      containsIdP_unlinkNode p m du hnd hmem hdu i]
    constructor
    · rintro ⟨⟨hc, hne⟩, hnr⟩
      exact ⟨hc, by simp [hne, hnr]⟩
    · rintro ⟨hc, hni⟩
      rw [List.mem_cons] at hni
      push_neg at hni
      exact ⟨⟨hc, hni.1⟩, hni.2⟩

/-!  Stability of the filter verdict under the scan's plan mutations. -/

/-- A node can only receive a verdict when it is a Filter node. -/
theorem filterVerdict_some_filter (p : ExecutionPlan) (n : ExecutionNode)
    (b : Bool) (h : filterVerdict p n = some b) : ∃ v, n.data = .filter v := by
  unfold filterVerdict at h
  cases hd : n.data <;> rw [hd] at h <;> first
    | exact ⟨_, rfl⟩
    | cases h

/-- The verdict of a node only depends on the setter payloads of the plan. -/
theorem filterVerdict_congr (p q : ExecutionPlan)
    (h : ∀ vid, setterData p vid = setterData q vid) (n : ExecutionNode) :
    filterVerdict p n = filterVerdict q n := by
  unfold filterVerdict
  cases hd : n.data <;> try rfl
  next v =>
    have hv := h v.id
    unfold setterData at hv
    cases hp : p.getVarSetBy v.id with
    | none =>
      cases hq : q.getVarSetBy v.id with
      | none => simp only [hp, hq]
      | some t => rw [hp, hq] at hv; simp at hv
    | some s =>
      cases hq : q.getVarSetBy v.id with
      | none => rw [hp, hq] at hv; simp at hv
      | some t =>
        rw [hp, hq] at hv
        simp only [Option.map_some', Option.some.injEq] at hv
        simp only [hp, hq, hv]

/-- `settingPred` only looks at a node's payload. -/
theorem settingPred_congr (vid : Nat) (x y : ExecutionNode)
    (h : x.data = y.data) : settingPred vid x = settingPred vid y := by
  unfold settingPred
  rw [h]

/-- Removing nodes of one id that set nothing and transforming the rest
without touching id or payload leaves every setter lookup's payload
unchanged. -/
theorem find?_setting_stable (vid : Nat) (l : List ExecutionNode) (rmId : Nat)
    (g : ExecutionNode → ExecutionNode)
    (hg : ∀ x, (g x).id = x.id ∧ (g x).data = x.data)
    (hrm : ∀ y ∈ l, y.id = rmId → settingPred vid y = false) :
    (((l.filter (fun (x : ExecutionNode) => x.id ≠ rmId)).map g).find?
        (settingPred vid)).map (fun x => x.data)
      = (l.find? (settingPred vid)).map (fun x => x.data) := by
  induction l with
  | nil => rfl
  | cons a rest ih =>
    have hrm' : ∀ y ∈ rest, y.id = rmId → settingPred vid y = false :=
      fun y hy => hrm y (List.mem_cons_of_mem a hy)
    by_cases ha : a.id = rmId
    · have hpa : settingPred vid a = false := hrm a (List.mem_cons_self a rest) ha
      rw [List.filter_cons_of_neg (by simp [ha]),
        List.find?_cons_of_neg _ (by simp [hpa])]
      exact ih hrm'
    · rw [List.filter_cons_of_pos (by simp [ha]), List.map_cons]
      have hga : settingPred vid (g a) = settingPred vid a :=
        settingPred_congr vid (g a) a (hg a).2
      by_cases hpa : settingPred vid a = true
      · rw [List.find?_cons_of_pos _ (by rw [hga]; exact hpa),
          List.find?_cons_of_pos _ hpa]
        simp [(hg a).2]
      · rw [List.find?_cons_of_neg _ (by rw [hga]; exact hpa),
          List.find?_cons_of_neg _ hpa]
        exact ih hrm'

/-!  The RemoveUnnecessaryCalculations claim. -/

/-- A node whose type tag is CALCULATION carries a calculation payload. -/
theorem getType_calculation (d : NodeData) (h : d.getType = .CALCULATION) :
    ∃ e v, d = .calculation e v := by
  cases d
  case calculation e v => exact ⟨e, v, rfl⟩
  all_goals simp [NodeData.getType] at h

/-- Membership in the batch `removeUnnecessaryCalculationsRule` collects. -/
theorem mem_ruc_toUnlink (plan : ExecutionPlan) (i : Nat) :
    i ∈ ruc_toUnlink plan ↔
      ∃ m ∈ plan.nodes, m.id = i ∧ m.data.getType = .CALCULATION ∧
        deadCalc plan m = true := by
  unfold ruc_toUnlink ExecutionPlan.findNodesOfType
  constructor
  · intro h
    rcases List.mem_map.mp h with ⟨m, hm, rfl⟩
    rcases List.mem_filter.mp hm with ⟨hm1, hdead⟩
    rcases List.mem_filter.mp hm1 with ⟨hmem, htype⟩
    exact ⟨m, hmem, rfl, by simpa using htype, hdead⟩
  · rintro ⟨m, hmem, rfl, htype, hdead⟩
    exact List.mem_map_of_mem _ (List.mem_filter.mpr
      ⟨List.mem_filter.mpr ⟨hmem, by simpa using htype⟩, hdead⟩)

/-- The collected batch has distinct ids. -/
theorem nodup_ruc_toUnlink (plan : ExecutionPlan) (hnd : (idsOf plan).Nodup) :
    (ruc_toUnlink plan).Nodup := by
  unfold ruc_toUnlink ExecutionPlan.findNodesOfType
  exact List.Nodup.sublist
    (List.Sublist.map _ ((List.filter_sublist _).trans (List.filter_sublist _))) hnd

/-- The dead-calculation test in terms of the claim's conditions. -/
theorem deadCalc_eq (plan : ExecutionPlan) (n : ExecutionNode) (e : Expression)
    (v : Variable) (hdata : n.data = .calculation e v) :
    (deadCalc plan n = true) ↔
      (e.canThrow = false ∧ v.id ∉ varIdsUsedLater plan n.id) := by
  unfold deadCalc
  rw [hdata]
  simp [List.elem_iff]

/-- Claim C4: `removeUnnecessaryCalculationsRule` unlinks a Calculation node
exactly when its expression cannot throw and its single output variable has
no use by any transitive consumer; in particular a Calculation that can throw
is retained even when its output variable is never used downstream.  The
single-dependency hypothesis on Calculation nodes mirrors the data model's
fixed arity (spec section 3), which batched unlinking relies on. -/
theorem claim_C4 (plan : ExecutionPlan)
    (hnd : (idsOf plan).Nodup)
    (hcalc1 : ∀ m ∈ plan.nodes, m.data.getType = .CALCULATION → m.deps.length = 1)
    (n : ExecutionNode) (hn : n ∈ plan.nodes) (e : Expression) (v : Variable)
    (hdata : n.data = .calculation e v) :
    (¬ containsIdP (removeUnnecessaryCalculationsRule plan).1 n.id
      ↔ (e.canThrow = false ∧ v.id ∉ varIdsUsedLater plan n.id))
    ∧ (e.canThrow = true →
        containsIdP (removeUnnecessaryCalculationsRule plan).1 n.id) := by
  have hcontains : containsIdP plan n.id := ⟨n, hn, rfl⟩
  have htypen : n.data.getType = .CALCULATION := by rw [hdata]; rfl
  have hmemU : n.id ∈ ruc_toUnlink plan ↔ deadCalc plan n = true := by
    rw [mem_ruc_toUnlink]
    constructor
    · rintro ⟨m, hmem, hidm, _, hdead⟩
      rwa [mem_id_inj plan hnd hmem hn hidm] at hdead
    · intro hdead
      exact ⟨n, hn, rfl, htypen, hdead⟩
  have hdeq := deadCalc_eq plan n e v hdata
  have hmembers : ∀ u ∈ ruc_toUnlink plan,
      ∃ m ∈ plan.nodes, m.id = u ∧ m.deps.length = 1 := by
    intro u hu
    rcases (mem_ruc_toUnlink plan u).mp hu with ⟨m, hmem, hidm, htype, _⟩
    exact ⟨m, hmem, hidm, hcalc1 m hmem htype⟩
  have hmain : ¬ containsIdP (removeUnnecessaryCalculationsRule plan).1 n.id
      ↔ (e.canThrow = false ∧ v.id ∉ varIdsUsedLater plan n.id) := by
    unfold removeUnnecessaryCalculationsRule
    cases hU : (ruc_toUnlink plan).isEmpty with
    | true =>
      rw [List.isEmpty_iff] at hU
      simp only [hU, List.isEmpty_nil, if_true]
      constructor
      · intro hnc
        exact absurd hcontains hnc
      · intro hcond
        have hin : n.id ∈ ruc_toUnlink plan := hmemU.mpr (hdeq.mpr hcond)
        rw [hU] at hin
        exact absurd hin (List.not_mem_nil _)
    | false =>
      simp only [hU, Bool.false_eq_true, if_false]
      rw [containsIdP_unlinkNodes (ruc_toUnlink plan) plan hnd
        (nodup_ruc_toUnlink plan hnd) hmembers n.id]
      constructor
      · intro hni
        have hin : n.id ∈ ruc_toUnlink plan := by
          by_contra hnot
          exact hni ⟨hcontains, hnot⟩
        exact hdeq.mp (hmemU.mp hin)
      · intro hcond
        rintro ⟨_, hnotU⟩
        exact hnotU (hmemU.mpr (hdeq.mpr hcond))
  refine ⟨hmain, fun hthrow => ?_⟩
  by_contra hnc
  have hfalse := (hmain.mp hnc).1
  rw [hthrow] at hfalse
  cases hfalse

/-- Witness for C4 at `deadCalcPlan`: the throw-free Calculation (id 1)
whose variable `t` has no later use is unlinked by the rule. -/
theorem claim_C4_witness :
    ((idsOf deadCalcPlan).Nodup ∧
      (∀ m ∈ deadCalcPlan.nodes,
        m.data.getType = .CALCULATION → m.deps.length = 1) ∧
      (⟨1, .calculation ⟨.valueNode (.boolV true), false⟩ tVar, [0]⟩ : ExecutionNode)
        ∈ deadCalcPlan.nodes ∧
      (⟨1, .calculation ⟨.valueNode (.boolV true), false⟩ tVar, [0]⟩ :
        ExecutionNode).data
        = .calculation ⟨.valueNode (.boolV true), false⟩ tVar) ∧
    ¬ containsIdP (removeUnnecessaryCalculationsRule deadCalcPlan).1 1 :=
  ⟨⟨by decide, by decide, by decide, by decide⟩,
    (claim_C4 deadCalcPlan (by decide) (by decide)
      ⟨1, .calculation ⟨.valueNode (.boolV true), false⟩ tVar, [0]⟩ (by decide)
      ⟨.valueNode (.boolV true), false⟩ tVar (by decide)).1.mpr
      ⟨by decide, by decide⟩⟩

/-!  Preservation of the scan invariants by one `rufStep`. -/

/-- A freshly registered NoResults node sets no variable. -/
theorem settingPred_noResults (vid i : Nat) :
    settingPred vid (⟨i, .noResults, []⟩ : ExecutionNode) = false := rfl

/-- A filter node sets no variable. -/
theorem settingPred_filter (vid : Nat) (y : ExecutionNode) (v : Variable)
    (h : y.data = .filter v) : settingPred vid y = false := by
  unfold settingPred
  rw [h]
  rfl

/-- Registering the fresh NoResults node and bumping the counter preserves
the scan invariant. -/
theorem scanInv_register (plan p : ExecutionPlan) (hS : ScanInv plan p) :
    ScanInv plan
      { nodes := p.nodes ++ [(⟨p.nextIdCounter, .noResults, []⟩ : ExecutionNode)],
        nextIdCounter := p.nextIdCounter + 1 } := by
  refine ⟨?_, ?_, ?_, ?_, ?_, ?_⟩
  · unfold idsOf
    rw [List.map_append, List.nodup_append]
    refine ⟨hS.nodup, List.nodup_singleton _, ?_⟩
    intro a ha hb
    simp only [List.map_cons, List.map_nil, List.mem_singleton] at hb
    rcases List.mem_map.mp ha with ⟨x, hx, rfl⟩
    exact absurd hb (Nat.ne_of_lt (hS.bound x hx))
  · intro x hx
    rcases List.mem_append.mp hx with h | h
    · exact Nat.lt_succ_of_lt (hS.bound x h)
    · rw [List.mem_singleton] at h
      rw [h]
      exact Nat.lt_succ_self _
  · exact Nat.le_succ_of_le hS.mono
  · intro x hx hlt
    rcases List.mem_append.mp hx with h | h
    · exact hS.origData x h hlt
    · rw [List.mem_singleton] at h
      rw [h] at hlt
      exact absurd hlt (Nat.not_lt.mpr hS.mono)
  · intro x hx hge
    rcases List.mem_append.mp hx with h | h
    · exact hS.freshData x h hge
    · rw [List.mem_singleton] at h
      rw [h]
  · intro vid
    unfold setterData ExecutionPlan.getVarSetBy
    rw [List.find?_append]
    have : List.find? (settingPred vid) [(⟨p.nextIdCounter, .noResults, []⟩ : ExecutionNode)]
        = none := by
      rw [List.find?_cons_of_neg _ (by rw [settingPred_noResults]; simp), List.find?_nil]
    rw [this, Option.or_none]
    exact hS.setters vid

/-- Registering the fresh node keeps the tracked filter and parent. -/
theorem trackInv_register (p : ExecutionPlan) (F : ExecutionNode) (d pfId : Nat)
    (hT : TrackInv p F d pfId) :
    TrackInv
      { nodes := p.nodes ++ [(⟨p.nextIdCounter, .noResults, []⟩ : ExecutionNode)],
        nextIdCounter := p.nextIdCounter + 1 } F d pfId := by
  obtain ⟨xF, hxF, h1, h2, h3⟩ := hT.fmem
  obtain ⟨xp, hxp, h4, h5⟩ := hT.pfmem
  exact ⟨⟨xF, List.mem_append_left _ hxF, h1, h2, h3⟩,
    ⟨xp, List.mem_append_left _ hxp, h4, h5⟩⟩

/-- The node transformation `replaceNode` applies preserves id and payload. -/
theorem replace_g_pres (newId parId oldRm newDep : Nat) (dps : List Nat)
    (x : ExecutionNode) :
    ((if x.id = newId then { x with deps := dps }
      else if x.id = parId then
        { x with deps := x.deps.map (fun y => if y = oldRm then newDep else y) }
      else x) : ExecutionNode).id = x.id
    ∧ ((if x.id = newId then { x with deps := dps }
      else if x.id = parId then
        { x with deps := x.deps.map (fun y => if y = oldRm then newDep else y) }
      else x) : ExecutionNode).data = x.data := by
  constructor <;> (split <;> try rfl) <;> (split <;> rfl)

/-- Replacing a filter node (remove by id, append done before, transform the
survivors without touching ids or payloads) preserves the scan invariant. -/
theorem scanInv_replace (plan p : ExecutionPlan) (hS : ScanInv plan p)
    (rmId : Nat) (hrmlt : rmId < plan.nextIdCounter)
    (hrmdata : ∀ y ∈ p.nodes, y.id = rmId → ∃ v, y.data = NodeData.filter v)
    (g : ExecutionNode → ExecutionNode)
    (hg : ∀ x, (g x).id = x.id ∧ (g x).data = x.data) :
    ScanInv plan
      { nodes := ((p.nodes ++ [(⟨p.nextIdCounter, .noResults, []⟩ : ExecutionNode)]).filter
          (fun (x : ExecutionNode) => x.id ≠ rmId)).map g,
        nextIdCounter := p.nextIdCounter + 1 } := by
  have hreg := scanInv_register plan p hS
  have hids : (((p.nodes ++ [(⟨p.nextIdCounter, .noResults, []⟩ : ExecutionNode)]).filter
      (fun (x : ExecutionNode) => x.id ≠ rmId)).map g).map (fun x => x.id)
      = ((p.nodes ++ [(⟨p.nextIdCounter, .noResults, []⟩ : ExecutionNode)]).filter
          (fun (x : ExecutionNode) => x.id ≠ rmId)).map (fun x => x.id) := by
    rw [List.map_map]
    exact List.map_congr_left (fun a _ => (hg a).1)
  refine ⟨?_, ?_, ?_, ?_, ?_, ?_⟩
  · unfold idsOf
    rw [hids]
    exact List.Nodup.sublist
      (List.Sublist.map _ (List.filter_sublist _)) hreg.nodup
  · intro x hx
    rcases List.mem_map.mp hx with ⟨y, hy, rfl⟩
    rw [(hg y).1]
    exact hreg.bound y (List.mem_of_mem_filter hy)
  · exact hreg.mono
  · intro x hx hlt
    rcases List.mem_map.mp hx with ⟨y, hy, rfl⟩
    rw [(hg y).1] at hlt ⊢
    rw [(hg y).2]
    exact hreg.origData y (List.mem_of_mem_filter hy) hlt
  · intro x hx hge
    rcases List.mem_map.mp hx with ⟨y, hy, rfl⟩
    rw [(hg y).1] at hge
    rw [(hg y).2]
    exact hreg.freshData y (List.mem_of_mem_filter hy) hge
  · intro vid
    unfold setterData ExecutionPlan.getVarSetBy
    have hrm : ∀ y ∈ p.nodes ++ [(⟨p.nextIdCounter, .noResults, []⟩ : ExecutionNode)],
        y.id = rmId → settingPred vid y = false := by
      intro y hy hid
      rcases List.mem_append.mp hy with h | h
      · obtain ⟨v, hv⟩ := hrmdata y h hid
        exact settingPred_filter vid y v hv
      · rw [List.mem_singleton] at h
        rw [h] at hid
        exact absurd hid (Nat.ne_of_gt (Nat.lt_of_lt_of_le hrmlt hS.mono))
    rw [find?_setting_stable vid _ rmId g hg hrm]
    exact hreg.setters vid

/-- Replacing a filter node distinct from the tracked filter, its dependency
and its parent keeps the tracked facts. -/
theorem trackInv_replace (plan p : ExecutionPlan) (hS : ScanInv plan p)
    (F : ExecutionNode) (d pfId : Nat) (hT : TrackInv p F d pfId)
    (rmId parId : Nat) (dps : List Nat)
    (hFne : F.id ≠ rmId) (hpfne : pfId ≠ rmId) (hdne : d ≠ rmId) :
    TrackInv
      { nodes := ((p.nodes ++ [(⟨p.nextIdCounter, .noResults, []⟩ : ExecutionNode)]).filter
          (fun (x : ExecutionNode) => x.id ≠ rmId)).map (fun (x : ExecutionNode) =>
            if x.id = p.nextIdCounter then { x with deps := dps }
            else if x.id = parId then
              { x with deps :=
                  x.deps.map (fun y => if y = rmId then p.nextIdCounter else y) }
            else x),
        nextIdCounter := p.nextIdCounter + 1 } F d pfId := by
  obtain ⟨xF, hxF, hFid, hFdata, hFdeps⟩ := hT.fmem
  obtain ⟨xp, hxp, hpid, hpdep⟩ := hT.pfmem
  have hxFlt : xF.id < p.nextIdCounter := hS.bound xF hxF
  have hxplt : xp.id < p.nextIdCounter := hS.bound xp hxp
  constructor
  · have hmemF : xF ∈ (p.nodes ++ [(⟨p.nextIdCounter, .noResults, []⟩ : ExecutionNode)]).filter
        (fun (x : ExecutionNode) => x.id ≠ rmId) :=
      List.mem_filter.mpr ⟨List.mem_append_left _ hxF, by simp [hFid ▸ hFne]⟩
    refine ⟨_, List.mem_map_of_mem _ hmemF, ?_⟩
    have hne1 : ¬ (xF.id = p.nextIdCounter) := Nat.ne_of_lt hxFlt
    by_cases hne2 : xF.id = parId
    · rw [if_neg hne1, if_pos hne2]
      refine ⟨hFid, hFdata, ?_⟩
      rw [hFdeps]
      simp [hdne]
    · rw [if_neg hne1, if_neg hne2]
      exact ⟨hFid, hFdata, hFdeps⟩
  · have hmemp : xp ∈ (p.nodes ++ [(⟨p.nextIdCounter, .noResults, []⟩ : ExecutionNode)]).filter
        (fun (x : ExecutionNode) => x.id ≠ rmId) :=
      List.mem_filter.mpr ⟨List.mem_append_left _ hxp, by simp [hpid ▸ hpfne]⟩
    refine ⟨_, List.mem_map_of_mem _ hmemp, ?_⟩
    have hne1 : ¬ (xp.id = p.nextIdCounter) := Nat.ne_of_lt hxplt
    by_cases hne2 : xp.id = parId
    · rw [if_neg hne1, if_pos hne2]
      refine ⟨hpid, ?_⟩
      have hfix : (fun y => if y = rmId then p.nextIdCounter else y) F.id = F.id := by
        simp [hFne]
      exact hfix ▸ List.mem_map_of_mem _ hpdep
    · rw [if_neg hne1, if_neg hne2]
      exact ⟨hpid, hpdep⟩

/-- The constant-false branch of `rufStep` when the scanned id is no longer
present: the replacement is a no-op beyond registering the fresh node. -/
theorem rufStep_false_shape_absent (p : ExecutionPlan) (U : List Nat)
    (n par : ExecutionNode) (hv : filterVerdict p n = some false)
    (hpar : p.parentsOf n.id = [par])
    (hfind : List.find? (fun m => m.id = n.id)
      (p.nodes ++ [(⟨p.nextIdCounter, .noResults, []⟩ : ExecutionNode)]) = none) :
    rufStep (p, U) n =
      ({ nodes := p.nodes ++ [(⟨p.nextIdCounter, .noResults, []⟩ : ExecutionNode)],
         nextIdCounter := p.nextIdCounter + 1 }, U) := by
  simp only [rufStep, hv, hpar, ExecutionPlan.registerNode,
    ExecutionPlan.replaceNode, ExecutionPlan.getNodeById]
  simp only [hfind]

/-- The constant-false branch of `rufStep` when the scanned id resolves to a
node `old`: remove it, register the fresh NoResults node taking over
`old.deps`, and rewire the parent. -/
theorem rufStep_false_shape_found (p : ExecutionPlan) (U : List Nat)
    (n par old : ExecutionNode) (hv : filterVerdict p n = some false)
    (hpar : p.parentsOf n.id = [par])
    (hfind : List.find? (fun m => m.id = n.id)
      (p.nodes ++ [(⟨p.nextIdCounter, .noResults, []⟩ : ExecutionNode)]) = some old) :
    rufStep (p, U) n =
      ({ nodes := ((p.nodes ++ [(⟨p.nextIdCounter, .noResults, []⟩ : ExecutionNode)]).filter
            (fun (m : ExecutionNode) => m.id ≠ n.id)).map (fun (m : ExecutionNode) =>
              if m.id = p.nextIdCounter then { m with deps := old.deps }
              else if m.id = par.id then
                { m with deps :=
                    m.deps.map (fun d => if d = n.id then p.nextIdCounter else d) }
              else m),
         nextIdCounter := p.nextIdCounter + 1 }, U) := by
  simp only [rufStep, hv, hpar, ExecutionPlan.registerNode,
    ExecutionPlan.replaceNode, ExecutionPlan.getNodeById]
  simp only [hfind]

/-- One `rufStep` on any node of the original plan preserves the scan
invariant and the tracked facts about a constant-true filter whose
dependency and parent are themselves no constant filters; the unlink batch
either stays (for a skipped or replaced node) or gains exactly the id of a
constant-true filter. -/
theorem rufStep_preserves
    (plan : ExecutionPlan) (F dnode pf : ExecutionNode)
    (hnd : (idsOf plan).Nodup)
    (hbound : ∀ x ∈ plan.nodes, x.id < plan.nextIdCounter)
    (hF : F ∈ plan.nodes) (hFtrue : filterVerdict plan F = some true)
    (hdmem : dnode ∈ plan.nodes) (hdnone : filterVerdict plan dnode = none)
    (hpfmem : pf ∈ plan.nodes) (hpfnone : filterVerdict plan pf = none)
    (p : ExecutionPlan) (U : List Nat) (m : ExecutionNode) (hm : m ∈ plan.nodes)
    (hS : ScanInv plan p) (hT : TrackInv p F dnode.id pf.id) :
    ScanInv plan (rufStep (p, U) m).1
    ∧ TrackInv (rufStep (p, U) m).1 F dnode.id pf.id
    ∧ (((rufStep (p, U) m).2 = U ∧ filterVerdict plan m ≠ some true)
       ∨ ((rufStep (p, U) m).2 = U ++ [m.id] ∧ filterVerdict plan m = some true)) := by
  have hcong : ∀ x, filterVerdict p x = filterVerdict plan x :=
    filterVerdict_congr p plan hS.setters
  cases hv : filterVerdict p m with
  | none =>
    have hstep : rufStep (p, U) m = (p, U) := by simp [rufStep, hv]
    rw [hstep]
    refine ⟨hS, hT, Or.inl ⟨rfl, ?_⟩⟩
    rw [← hcong m, hv]
    simp
  | some b =>
    cases b with
    | true =>
      have hstep : rufStep (p, U) m = (p, U ++ [m.id]) := by simp [rufStep, hv]
      rw [hstep]
      exact ⟨hS, hT, Or.inr ⟨rfl, by rw [← hcong m]; exact hv⟩⟩
    | false =>
      have hvm : filterVerdict plan m = some false := by rw [← hcong m]; exact hv
      have hmntrue : filterVerdict plan m ≠ some true := by rw [hvm]; simp
      have hmF : m.id ≠ F.id := by
        intro he
        have hme : m = F := mem_id_inj plan hnd hm hF he
        rw [hme, hFtrue] at hvm
        cases hvm
      have hmd : m.id ≠ dnode.id := by
        intro he
        have hme : m = dnode := mem_id_inj plan hnd hm hdmem he
        rw [hme, hdnone] at hvm
        cases hvm
      have hmpf : m.id ≠ pf.id := by
        intro he
        have hme : m = pf := mem_id_inj plan hnd hm hpfmem he
        rw [hme, hpfnone] at hvm
        cases hvm
      have hmlt : m.id < plan.nextIdCounter := hbound m hm
      obtain ⟨v, hmdata⟩ := filterVerdict_some_filter plan m false hvm
      cases hpar : p.parentsOf m.id with
      | nil =>
        have hstep : rufStep (p, U) m = (p, U) := by simp [rufStep, hv, hpar]
        rw [hstep]
        exact ⟨hS, hT, Or.inl ⟨rfl, hmntrue⟩⟩
      | cons par rest =>
        cases rest with
        | cons par2 rest2 =>
          have hstep : rufStep (p, U) m = (p, U) := by simp [rufStep, hv, hpar]
          rw [hstep]
          exact ⟨hS, hT, Or.inl ⟨rfl, hmntrue⟩⟩
        | nil =>
          cases hfind : List.find? (fun x => x.id = m.id)
              (p.nodes ++ [(⟨p.nextIdCounter, .noResults, []⟩ : ExecutionNode)]) with
          | none =>
            rw [rufStep_false_shape_absent p U m par hv hpar hfind]
            exact ⟨scanInv_register plan p hS,
              trackInv_register p F dnode.id pf.id hT, Or.inl ⟨rfl, hmntrue⟩⟩
          | some old =>
            have holdid : old.id = m.id := by simpa using List.find?_some hfind
            have holdmem : old ∈ p.nodes ++
                [(⟨p.nextIdCounter, .noResults, []⟩ : ExecutionNode)] :=
              List.mem_of_find?_eq_some hfind
            have holdp : old ∈ p.nodes := by
              rcases List.mem_append.mp holdmem with h | h
              · exact h
              · rw [List.mem_singleton] at h
                exfalso
                rw [h] at holdid
                exact absurd holdid
                  (Nat.ne_of_gt (Nat.lt_of_lt_of_le hmlt hS.mono))
            have holddata : old.data = m.data := by
              obtain ⟨x0, hx0m, hx0id, hx0data⟩ := hS.origData old holdp
                (by rw [holdid]; exact hmlt)
              have hx0 : x0 = m := mem_id_inj plan hnd hx0m hm
                (by rw [hx0id, holdid])
              rw [← hx0data, hx0]
            have hrmdata : ∀ y ∈ p.nodes, y.id = m.id →
                ∃ v', y.data = NodeData.filter v' := by
              intro y hy hid
              have hyold : y = old := mem_id_inj p hS.nodup hy holdp
                (by rw [hid, holdid])
              rw [hyold, holddata, hmdata]
              exact ⟨v, rfl⟩
            rw [rufStep_false_shape_found p U m par old hv hpar hfind]
            refine ⟨?_, ?_, Or.inl ⟨rfl, hmntrue⟩⟩
            · exact scanInv_replace plan p hS m.id hmlt hrmdata _
                (fun x => replace_g_pres p.nextIdCounter par.id m.id
                  p.nextIdCounter old.deps x)
            · exact trackInv_replace plan p hS F dnode.id pf.id hT m.id par.id
                old.deps (Ne.symm hmF) (Ne.symm hmpf) (Ne.symm hmd)

/-- The whole scan preserves the invariants, and the collected batch consists
of exactly the previously collected ids plus the ids of the scanned
constant-true filters. -/
theorem ruf_scan_fold
    (plan : ExecutionPlan) (F dnode pf : ExecutionNode)
    (hnd : (idsOf plan).Nodup)
    (hbound : ∀ x ∈ plan.nodes, x.id < plan.nextIdCounter)
    (hF : F ∈ plan.nodes) (hFtrue : filterVerdict plan F = some true)
    (hdmem : dnode ∈ plan.nodes) (hdnone : filterVerdict plan dnode = none)
    (hpfmem : pf ∈ plan.nodes) (hpfnone : filterVerdict plan pf = none)
    (l : List ExecutionNode) :
    (∀ x ∈ l, x ∈ plan.nodes) →
    ∀ (p : ExecutionPlan) (U : List Nat),
    ScanInv plan p → TrackInv p F dnode.id pf.id →
    ScanInv plan (l.foldl rufStep (p, U)).1
    ∧ TrackInv (l.foldl rufStep (p, U)).1 F dnode.id pf.id
    ∧ (∀ u, u ∈ (l.foldl rufStep (p, U)).2 ↔
        (u ∈ U ∨ ∃ x ∈ l, x.id = u ∧ filterVerdict plan x = some true)) := by
  induction l with
  | nil =>
    intro _ p U hS hT
    exact ⟨hS, hT, fun u => by simp⟩
  | cons m rest ih =>
    intro hl p U hS hT
    have hm : m ∈ plan.nodes := hl m (List.mem_cons_self m rest)
    obtain ⟨hS', hT', hU'⟩ := rufStep_preserves plan F dnode pf hnd hbound hF
      hFtrue hdmem hdnone hpfmem hpfnone p U m hm hS hT
    rw [List.foldl_cons]
    have heta : rufStep (p, U) m = ((rufStep (p, U) m).1, (rufStep (p, U) m).2) := rfl
    rw [heta]
    obtain ⟨hSr, hTr, hUr⟩ := ih (fun x hx => hl x (List.mem_cons_of_mem m hx))
      (rufStep (p, U) m).1 (rufStep (p, U) m).2 hS' hT'
    refine ⟨hSr, hTr, fun u => ?_⟩
    rw [hUr u]
    rcases hU' with ⟨hUeq, hnt⟩ | ⟨hUeq, ht⟩
    · rw [hUeq]
      constructor
      · rintro (h | ⟨x, hxmem, hxid, hxv⟩)
        · exact Or.inl h
        · exact Or.inr ⟨x, List.mem_cons_of_mem m hxmem, hxid, hxv⟩
      · rintro (h | ⟨x, hxmem, hxid, hxv⟩)
        · exact Or.inl h
        · rcases List.mem_cons.mp hxmem with hxm | hxr
          · exact absurd (hxm ▸ hxv) hnt
          · exact Or.inr ⟨x, hxr, hxid, hxv⟩
    · rw [hUeq]
      constructor
      · rintro (h | ⟨x, hxmem, hxid, hxv⟩)
        · rcases List.mem_append.mp h with h1 | h1
          · exact Or.inl h1
          · rw [List.mem_singleton] at h1
            exact Or.inr ⟨m, List.mem_cons_self m rest, h1.symm, ht⟩
        · exact Or.inr ⟨x, List.mem_cons_of_mem m hxmem, hxid, hxv⟩
      · rintro (h | ⟨x, hxmem, hxid, hxv⟩)
        · exact Or.inl (List.mem_append_left _ h)
        · rcases List.mem_cons.mp hxmem with hxm | hxr
          · subst hxm
            exact Or.inl (List.mem_append_right _ (List.mem_singleton.mpr hxid.symm))
          · exact Or.inr ⟨x, hxr, hxid, hxv⟩

/-!  The unlink batch: tracking one filter, its dependency and its parent. -/

/-- `unlinkNode` is a no-op on an absent id. -/
theorem unlinkNode_absent (p : ExecutionPlan) (u : Nat)
    (hfind : p.getNodeById u = none) : p.unlinkNode u = p := by
  simp only [ExecutionPlan.unlinkNode, hfind]

/-- `unlinkNode` is a no-op when the node has no dependency. -/
theorem unlinkNode_nodeps (p : ExecutionPlan) (u : Nat) (n' : ExecutionNode)
    (hfind : p.getNodeById u = some n') (hdeps : n'.deps = []) :
    p.unlinkNode u = p := by
  simp only [ExecutionPlan.unlinkNode, hfind, hdeps]

/-- `unlinkNode` is a no-op when the node has at least two dependencies. -/
theorem unlinkNode_multideps (p : ExecutionPlan) (u : Nat) (n' : ExecutionNode)
    (d1 d2 : Nat) (r : List Nat)
    (hfind : p.getNodeById u = some n') (hdeps : n'.deps = d1 :: d2 :: r) :
    p.unlinkNode u = p := by
  simp only [ExecutionPlan.unlinkNode, hfind, hdeps]

/-- The shape of `unlinkNode` on a found single-dependency node, phrased with
the lookup result. -/
theorem unlinkNode_shape_found (p : ExecutionPlan) (u : Nat) (n' : ExecutionNode)
    (dd : Nat) (hfind : p.getNodeById u = some n') (hdeps : n'.deps = [dd]) :
    p.unlinkNode u =
      { nodes := (p.nodes.filter (fun (x : ExecutionNode) => x.id ≠ u)).map
          (fun (x : ExecutionNode) =>
            { x with deps := x.deps.map (fun y => if y = u then dd else y) }),
        nextIdCounter := p.nextIdCounter } := by
  simp only [ExecutionPlan.unlinkNode, hfind, hdeps]

/-- Any single `unlinkNode` preserves distinctness of node ids. -/
theorem nodup_unlinkNode_any (p : ExecutionPlan) (u : Nat)
    (hnd : (idsOf p).Nodup) : (idsOf (p.unlinkNode u)).Nodup := by
  cases hfind : p.getNodeById u with
  | none => rw [unlinkNode_absent p u hfind]; exact hnd
  | some n' =>
    cases hdeps : n'.deps with
    | nil => rw [unlinkNode_nodeps p u n' hfind hdeps]; exact hnd
    | cons dd rest =>
      cases rest with
      | cons d2 r2 => rw [unlinkNode_multideps p u n' dd d2 r2 hfind hdeps]; exact hnd
      | nil =>
        rw [unlinkNode_shape_found p u n' dd hfind hdeps]
        unfold idsOf at *
        rw [List.map_map]
        have heq : ((fun (x : ExecutionNode) => x.id) ∘ (fun (x : ExecutionNode) =>
            ({ x with deps := x.deps.map (fun y => if y = u then dd else y) } :
              ExecutionNode)))
            = (fun (x : ExecutionNode) => x.id) := rfl
        rw [heq]
        exact List.Nodup.sublist
          (List.Sublist.map (fun x => x.id) (List.filter_sublist p.nodes)) hnd

/-- `ruf_stateB` survives unlinking any node other than the dependency and
the parent. -/
theorem stateB_unlinkNode (p : ExecutionPlan) (d pfId u : Nat)
    (hud : u ≠ d) (hupf : u ≠ pfId) (hB : ruf_stateB p d pfId) :
    ruf_stateB (p.unlinkNode u) d pfId := by
  obtain ⟨xp, hxp, hid, hdep⟩ := hB
  cases hfind : p.getNodeById u with
  | none => rw [unlinkNode_absent p u hfind]; exact ⟨xp, hxp, hid, hdep⟩
  | some n' =>
    cases hdeps : n'.deps with
    | nil => rw [unlinkNode_nodeps p u n' hfind hdeps]; exact ⟨xp, hxp, hid, hdep⟩
    | cons dd rest =>
      cases rest with
      | cons d2 r2 =>
        rw [unlinkNode_multideps p u n' dd d2 r2 hfind hdeps]
        exact ⟨xp, hxp, hid, hdep⟩
      | nil =>
        rw [unlinkNode_shape_found p u n' dd hfind hdeps]
        refine ⟨_, List.mem_map_of_mem _ (List.mem_filter.mpr
          ⟨hxp, by simp [hid, Ne.symm hupf]⟩), hid, ?_⟩
        have hfix : (fun y => if y = u then dd else y) d = d := by
          simp [Ne.symm hud]
        exact hfix ▸ List.mem_map_of_mem _ hdep

/-- `ruf_stateB` survives the whole unlink batch when neither the dependency
nor the parent is in it. -/
theorem stateB_unlinkNodes (d pfId : Nat) :
    ∀ (U : List Nat) (p : ExecutionPlan),
    (∀ u ∈ U, u ≠ d ∧ u ≠ pfId) → ruf_stateB p d pfId →
    ruf_stateB (p.unlinkNodes U) d pfId := by
  intro U
  induction U with
  | nil => intro p _ hB; exact hB
  | cons u rest ih =>
    intro p hU hB
    have hstep : p.unlinkNodes (u :: rest) = (p.unlinkNode u).unlinkNodes rest := by
      unfold ExecutionPlan.unlinkNodes
      rw [List.foldl_cons]
    rw [hstep]
    have hu := hU u (List.mem_cons_self u rest)
    exact ih (p.unlinkNode u) (fun x hx => hU x (List.mem_cons_of_mem u hx))
      (stateB_unlinkNode p d pfId u hu.1 hu.2 hB)

/-- Unlinking the tracked filter itself moves from state A to state B: the
parent is rewired onto the filter's single dependency. -/
theorem stateA_unlinkNode_self (p : ExecutionPlan) (fid d pfId : Nat)
    (hnd : (idsOf p).Nodup) (hpffid : pfId ≠ fid)
    (hA : ruf_stateA p fid d pfId) : ruf_stateB (p.unlinkNode fid) d pfId := by
  obtain ⟨⟨xF, hxF, hFid, hFdeps⟩, ⟨xp, hxp, hpid, hpdep⟩⟩ := hA
  have hfind : p.getNodeById fid = some xF := by
    rw [← hFid]
    exact getNodeById_of_mem p xF hnd hxF
  rw [unlinkNode_shape_found p fid xF d hfind hFdeps]
  refine ⟨_, List.mem_map_of_mem _ (List.mem_filter.mpr
    ⟨hxp, by simp [hpid, hpffid]⟩), hpid, ?_⟩
  have hmem2 := List.mem_map_of_mem (fun y => if y = fid then d else y) hpdep
  simpa using hmem2

/-- `ruf_stateA` survives unlinking any node other than the filter, the
dependency and the parent. -/
theorem stateA_unlinkNode_other (p : ExecutionPlan) (fid d pfId u : Nat)
    (hufid : u ≠ fid) (hud : u ≠ d) (hupf : u ≠ pfId)
    (hA : ruf_stateA p fid d pfId) : ruf_stateA (p.unlinkNode u) fid d pfId := by
  obtain ⟨⟨xF, hxF, hFid, hFdeps⟩, ⟨xp, hxp, hpid, hpdep⟩⟩ := hA
  cases hfind : p.getNodeById u with
  | none =>
    rw [unlinkNode_absent p u hfind]
    exact ⟨⟨xF, hxF, hFid, hFdeps⟩, ⟨xp, hxp, hpid, hpdep⟩⟩
  | some n' =>
    cases hdeps : n'.deps with
    | nil =>
      rw [unlinkNode_nodeps p u n' hfind hdeps]
      exact ⟨⟨xF, hxF, hFid, hFdeps⟩, ⟨xp, hxp, hpid, hpdep⟩⟩
    | cons dd rest =>
      cases rest with
      | cons d2 r2 =>
        rw [unlinkNode_multideps p u n' dd d2 r2 hfind hdeps]
        exact ⟨⟨xF, hxF, hFid, hFdeps⟩, ⟨xp, hxp, hpid, hpdep⟩⟩
      | nil =>
        rw [unlinkNode_shape_found p u n' dd hfind hdeps]
        constructor
        · refine ⟨_, List.mem_map_of_mem _ (List.mem_filter.mpr
            ⟨hxF, by simp [hFid, Ne.symm hufid]⟩), hFid, ?_⟩
          rw [hFdeps]
          simp [Ne.symm hud]
        · refine ⟨_, List.mem_map_of_mem _ (List.mem_filter.mpr
            ⟨hxp, by simp [hpid, Ne.symm hupf]⟩), hpid, ?_⟩
          have hfix : (fun y => if y = u then dd else y) fid = fid := by
            simp [Ne.symm hufid]
          exact hfix ▸ List.mem_map_of_mem _ hpdep

/-- Through the whole unlink batch, the tracked facts stay in state A or B,
and once the batch contains the filter's id the final state is B: the parent
depends directly on the filter's former single dependency. -/
theorem unlink_fold_AB (fid d pfId : Nat) (hpffid : pfId ≠ fid) :
    ∀ (U : List Nat) (p : ExecutionPlan), (idsOf p).Nodup →
    (∀ u ∈ U, u ≠ d ∧ u ≠ pfId) →
    (ruf_stateA p fid d pfId ∨ ruf_stateB p d pfId) →
    ((ruf_stateA (p.unlinkNodes U) fid d pfId ∨ ruf_stateB (p.unlinkNodes U) d pfId)
     ∧ (fid ∈ U → ruf_stateB (p.unlinkNodes U) d pfId)) := by
  intro U
  induction U with
  | nil =>
    intro p _ _ hAB
    exact ⟨hAB, fun h => absurd h (List.not_mem_nil _)⟩
  | cons u rest ih =>
    intro p hnd hU hAB
    have hstep : p.unlinkNodes (u :: rest) = (p.unlinkNode u).unlinkNodes rest := by
      unfold ExecutionPlan.unlinkNodes
      rw [List.foldl_cons]
    rw [hstep]
    have hu := hU u (List.mem_cons_self u rest)
    have hUrest : ∀ x ∈ rest, x ≠ d ∧ x ≠ pfId :=
      fun x hx => hU x (List.mem_cons_of_mem u hx)
    have hnd' : (idsOf (p.unlinkNode u)).Nodup := nodup_unlinkNode_any p u hnd
    by_cases hufid : u = fid
    · have hB' : ruf_stateB (p.unlinkNode u) d pfId := by
        rcases hAB with hA | hB
        · rw [hufid]
          exact stateA_unlinkNode_self p fid d pfId hnd hpffid hA
        · exact stateB_unlinkNode p d pfId u hu.1 hu.2 hB
      have hfinal := stateB_unlinkNodes d pfId rest (p.unlinkNode u) hUrest hB'
      exact ⟨Or.inr hfinal, fun _ => hfinal⟩
    · have hAB' : ruf_stateA (p.unlinkNode u) fid d pfId ∨
          ruf_stateB (p.unlinkNode u) d pfId := by
        rcases hAB with hA | hB
        · exact Or.inl (stateA_unlinkNode_other p fid d pfId u hufid hu.1 hu.2 hA)
        · exact Or.inr (stateB_unlinkNode p d pfId u hu.1 hu.2 hB)
      obtain ⟨hfin1, hfin2⟩ := ih (p.unlinkNode u) hnd' hUrest hAB'
      refine ⟨hfin1, fun hmem => ?_⟩
      rcases List.mem_cons.mp hmem with h | h
      · exact absurd h.symm hufid
      · exact hfin2 h

/-- Counterexample to claim C2 as stated: in `chainPlan` the Filter node 3
reads the constant-true variable `t`, its single dependency is node 2 and its
single former parent is the Return node 4 — all of the claim's hypotheses —
yet after `removeUnnecessaryFiltersRule` the Return node does not depend on
node 2: node 2 is itself a constant-true Filter unlinked in the same batch,
so the parent is rewired past it to the Calculation node 1. -/
theorem claim_C2_counterexample :
    (filterVerdict chainPlan ⟨3, .filter tVar, [2]⟩ = some true
      ∧ (⟨3, .filter tVar, [2]⟩ : ExecutionNode) ∈ chainPlan.nodes
      ∧ (⟨3, .filter tVar, [2]⟩ : ExecutionNode).deps = [2]
      ∧ (⟨4, .ret tVar, [3]⟩ : ExecutionNode) ∈ chainPlan.nodes
      ∧ (3 : Nat) ∈ (⟨4, .ret tVar, [3]⟩ : ExecutionNode).deps)
    ∧ ¬ (∃ x ∈ (removeUnnecessaryFiltersRule chainPlan).1.nodes,
          x.id = 4 ∧ (2 : Nat) ∈ x.deps)
    ∧ (removeUnnecessaryFiltersRule chainPlan).1
        = { nodes := [ ⟨0, .singleton, []⟩
                     , ⟨1, .calculation ⟨.valueNode (.boolV true), false⟩ tVar, [0]⟩
                     , ⟨4, .ret tVar, [1]⟩ ],
            nextIdCounter := 5 } := by
  refine ⟨⟨by decide, by decide, by decide, by decide, by decide⟩, by decide, by decide⟩

/-- Claim C2, amended: a Filter whose single input variable is set by a
Calculation with a constant-true expression is recorded in the scan's unlink
batch, the batch is applied once after the full scan
(`removeUnnecessaryFiltersRule` literally unlinks the scan's batch on the
scanned plan), and — provided the Filter's single dependency and the parent
in question are not themselves constant filters rewritten by the same pass —
that former parent of the Filter depends directly on the Filter's single
dependency afterwards, while the plan is kept (`keep = true`). -/
theorem claim_C2_amended (plan : ExecutionPlan) (F dnode pf : ExecutionNode)
    (hnd : (idsOf plan).Nodup)
    (hbound : ∀ x ∈ plan.nodes, x.id < plan.nextIdCounter)
    (hF : F ∈ plan.nodes) (hFtrue : filterVerdict plan F = some true)
    (hFdeps : F.deps = [dnode.id])
    (hdmem : dnode ∈ plan.nodes) (hdnone : filterVerdict plan dnode = none)
    (hpfmem : pf ∈ plan.nodes) (hpfnone : filterVerdict plan pf = none)
    (hpfdep : F.id ∈ pf.deps) :
    F.id ∈ (ruf_scan plan).2
    ∧ removeUnnecessaryFiltersRule plan
        = ((ruf_scan plan).1.unlinkNodes (ruf_scan plan).2, true)
    ∧ (∃ x ∈ (removeUnnecessaryFiltersRule plan).1.nodes,
        x.id = pf.id ∧ dnode.id ∈ x.deps)
    ∧ (removeUnnecessaryFiltersRule plan).2 = true := by
  obtain ⟨v, hFdata⟩ := filterVerdict_some_filter plan F true hFtrue
  have hFsnap : F ∈ plan.findNodesOfType .FILTER := by
    unfold ExecutionPlan.findNodesOfType
    exact List.mem_filter.mpr ⟨hF, by simp [hFdata, NodeData.getType]⟩
  have hsub : ∀ x ∈ plan.findNodesOfType .FILTER, x ∈ plan.nodes :=
    fun x hx => (List.mem_filter.mp hx).1
  have hSinit : ScanInv plan plan :=
    ⟨hnd, hbound, Nat.le_refl _, fun x hx _ => ⟨x, hx, rfl, rfl⟩,
      fun x hx hge => absurd hge (Nat.not_le.mpr (hbound x hx)),
      fun _ => rfl⟩
  have hTinit : TrackInv plan F dnode.id pf.id :=
    ⟨⟨F, hF, rfl, rfl, hFdeps⟩, ⟨pf, hpfmem, rfl, hpfdep⟩⟩
  have hscan : ruf_scan plan
      = (plan.findNodesOfType .FILTER).foldl rufStep (plan, []) := rfl
  obtain ⟨hS1, hT1, hU1⟩ := ruf_scan_fold plan F dnode pf hnd hbound hF hFtrue
    hdmem hdnone hpfmem hpfnone (plan.findNodesOfType .FILTER) hsub plan []
    hSinit hTinit
  rw [← hscan] at hS1 hT1 hU1
  have hFinU : F.id ∈ (ruf_scan plan).2 :=
    (hU1 F.id).mpr (Or.inr ⟨F, hFsnap, rfl, hFtrue⟩)
  have hUd : ∀ u ∈ (ruf_scan plan).2, u ≠ dnode.id ∧ u ≠ pf.id := by
    intro u hu
    rcases (hU1 u).mp hu with h | ⟨x, hxsnap, hxid, hxtrue⟩
    · exact absurd h (List.not_mem_nil _)
    · have hxmem := hsub x hxsnap
      constructor
      · intro he
        have hxd : x = dnode := mem_id_inj plan hnd hxmem hdmem (by rw [hxid, he])
        rw [hxd, hdnone] at hxtrue
        cases hxtrue
      · intro he
        have hxpf : x = pf := mem_id_inj plan hnd hxmem hpfmem (by rw [hxid, he])
        rw [hxpf, hpfnone] at hxtrue
        cases hxtrue
  have hpffid : pf.id ≠ F.id := by
    intro he
    have : pf = F := mem_id_inj plan hnd hpfmem hF he
    rw [this, hFtrue] at hpfnone
    cases hpfnone
  have hne : (ruf_scan plan).2.isEmpty = false := by
    cases he : (ruf_scan plan).2.isEmpty
    · rfl
    · rw [List.isEmpty_iff] at he
      rw [he] at hFinU
      exact absurd hFinU (List.not_mem_nil _)
  have hrule : removeUnnecessaryFiltersRule plan
      = ((ruf_scan plan).1.unlinkNodes (ruf_scan plan).2, true) := by
    unfold removeUnnecessaryFiltersRule
    show (if (ruf_scan plan).2.isEmpty = true then (ruf_scan plan).1
      else (ruf_scan plan).1.unlinkNodes (ruf_scan plan).2, true) = _
    rw [hne]
    rfl
  refine ⟨hFinU, hrule, ?_, by rw [hrule]⟩
  obtain ⟨xF, hxFmem, hxFid, _, hxFdeps⟩ := hT1.fmem
  obtain ⟨xp, hxpmem, hxpid, hxpdep⟩ := hT1.pfmem
  have hAB := unlink_fold_AB F.id dnode.id pf.id hpffid (ruf_scan plan).2
    (ruf_scan plan).1 hS1.nodup hUd
    (Or.inl ⟨⟨xF, hxFmem, hxFid, hxFdeps⟩, ⟨xp, hxpmem, hxpid, hxpdep⟩⟩)
  have hB := hAB.2 hFinU
  obtain ⟨x, hx, hid, hdep⟩ := hB
  rw [hrule]
  exact ⟨x, hx, hid, hdep⟩

/-- Witness for the amended C2 at `truePlan`: its single constant-true
filter (id 2) sits between the Calculation (id 1) and the Return (id 3);
after the rule the Return depends directly on the Calculation. -/
theorem claim_C2_amended_witness :
    ((idsOf truePlan).Nodup
      ∧ (∀ x ∈ truePlan.nodes, x.id < truePlan.nextIdCounter)
      ∧ (⟨2, .filter tVar, [1]⟩ : ExecutionNode) ∈ truePlan.nodes
      ∧ filterVerdict truePlan ⟨2, .filter tVar, [1]⟩ = some true
      ∧ (⟨2, .filter tVar, [1]⟩ : ExecutionNode).deps
          = [(⟨1, .calculation ⟨.valueNode (.boolV true), false⟩ tVar, [0]⟩ :
              ExecutionNode).id]
      ∧ filterVerdict truePlan
          ⟨1, .calculation ⟨.valueNode (.boolV true), false⟩ tVar, [0]⟩ = none
      ∧ filterVerdict truePlan ⟨3, .ret tVar, [2]⟩ = none)
    ∧ ((2 : Nat) ∈ (ruf_scan truePlan).2
      ∧ (∃ x ∈ (removeUnnecessaryFiltersRule truePlan).1.nodes,
          x.id = 3 ∧ (1 : Nat) ∈ x.deps)) :=
  ⟨⟨by decide, by decide, by decide, by decide, by decide, by decide, by decide⟩,
    ⟨(claim_C2_amended truePlan ⟨2, .filter tVar, [1]⟩
        ⟨1, .calculation ⟨.valueNode (.boolV true), false⟩ tVar, [0]⟩
        ⟨3, .ret tVar, [2]⟩ (by decide) (by decide) (by decide) (by decide)
        (by decide) (by decide) (by decide) (by decide) (by decide)
        (by decide)).1,
      (claim_C2_amended truePlan ⟨2, .filter tVar, [1]⟩
        ⟨1, .calculation ⟨.valueNode (.boolV true), false⟩ tVar, [0]⟩
        ⟨3, .ret tVar, [2]⟩ (by decide) (by decide) (by decide) (by decide)
        (by decide) (by decide) (by decide) (by decide) (by decide)
        (by decide)).2.2.1⟩⟩

end ArangoAql
